import Mathlib

/-!
# Verification of the beta-expansion orbit engine

Shallow embedding of the adaptive-precision orbit iteration and
period-detection engine for beta expansions of Perron numbers
(`_single_orbit` and its helpers), together with proofs settling the
frozen specification claims.

Integer polynomials are modelled by their raw coefficient arrays
(ascending order of powers), mirroring the `IntPolynomial` value type;
the degree is always recomputed from the coefficients.  Arbitrary
precision reals (`mpf`) are modelled by rationals; the finite-precision
evaluation of `beta0 * B_{n-1}(1)` and the `almosteq` convergence test
are abstracted into oracle functions of the machine's parameters, since
the control flow of the engine depends on them only through the returned
values.
-/

-- Rational arithmetic must reduce during elaboration so that concrete
-- machine runs can be settled by `decide`.
attribute [local semireducible] Rat.add Rat.sub Rat.mul Rat.inv

namespace BetaNumbers

/-- Degree of a raw coefficient array: the largest index holding a nonzero
coefficient, `-1` for the zero array.  Models `calc_deg` of the polynomial
value type (degree recomputed from coefficients, never cached stale). -/
def calc_deg : List Int → Int
  | [] => -1
  | c :: rest =>
      let d := calc_deg rest
      if 0 ≤ d then d + 1 else if c ≠ 0 then 0 else -1

/-- An integer polynomial, represented by its raw coefficient array in
ascending order of powers (index `i` holds the coefficient of `x^i`). -/
structure IntPoly where
  coefs : List Int
  deriving DecidableEq, Repr

namespace IntPoly

/-- The recomputed degree (`_deg` after `calc_deg`). -/
def deg (p : IntPoly) : Int := calc_deg p.coefs

/-- Read a coefficient from the raw array (`0` above the array bound). -/
def getCoef (p : IntPoly) (i : Nat) : Int := p.coefs.getD i 0

/-- Modelled from the spec: polynomial equality `equals(a,b)` compares the
recomputed degrees and all coefficients up to the degree. -/
def c_eq (a b : IntPoly) : Bool :=
  a.deg == b.deg &&
    (List.range (a.deg.toNat + 1)).all (fun i => a.getCoef i == b.getCoef i)

/-- Modelled from the spec: `max_abs_coeff(poly)`, the maximum absolute
value of the coefficients. -/
def max_abs_coef (p : IntPoly) : Int :=
  p.coefs.foldr (fun c m => max c.natAbs m) 0

/-- Modelled from the spec: evaluation by Horner's scheme over the raw
coefficient array. -/
def eval (p : IntPoly) (x : ℚ) : ℚ :=
  p.coefs.foldr (fun (c : Int) (acc : ℚ) => (c : ℚ) + x * acc) 0

end IntPoly

/-- Floor of a rational, computed from the reduced fraction (kernel
computable; equals `Int.floor`, see `ratFloor_eq`). -/
def ratFloor (x : ℚ) : Int := Int.fdiv x.num (x.den : Int)

/-- Ceiling of a rational (equals `Int.ceil`, see `ratCeil_eq`). -/
def ratCeil (x : ℚ) : Int := -(ratFloor (-x))

/-- Python `int()` applied to a real value: truncation toward zero. -/
def pyInt (x : ℚ) : Int := if 0 ≤ x then ratFloor x else -(ratFloor (-x))

/-- `mpmath.frac`: the fractional part `x - floor(x)`. -/
def mp_frac (x : ℚ) : ℚ := x - ratFloor x

/-- `_round`: compares the fractional part with its complement and takes
the floor or the ceiling accordingly. -/
def mp_round (x : ℚ) : Int :=
  let frac1 := mp_frac x
  let frac2 := 1 - frac1
  if frac1 ≤ frac2 then ratFloor x else ratCeil x

/-- `_calc_cn`: the digit is `int(xi)`. -/
def calc_cn (xi : ℚ) : Int := pyInt xi

/-- The right-shift loop of `_base2_magn`, with explicit fuel standing in
for the nonterminating cases: `magn` is incremented and `x` arithmetically
shifted right (floor division by two) until `x` is zero. -/
def base2_magn_loop : Nat → Int → Int → Option Int
  | 0, magn, x => if x = 0 then some magn else none
  | fuel + 1, magn, x =>
      if x = 0 then some magn else base2_magn_loop fuel (magn + 1) (Int.fdiv x 2)

/-- `_base2_magn` as written: the shift loop run on `x` with `magn = 0`. -/
def base2_magn_fuel (fuel : Nat) (x : Int) : Option Int :=
  base2_magn_loop fuel 0 x

/-- Binary digit count of a natural number, fuel-structured so that it
computes in the kernel; equals `Nat.size` when the fuel is sufficient
(see `sizeAux_eq_size`). -/
def sizeAux : Nat → Nat → Nat
  | 0, _ => 0
  | fuel + 1, n => if n = 0 then 0 else sizeAux fuel (n / 2) + 1

/-- Total counterpart of `_base2_magn` on the inputs where the loop
terminates: the binary digit count of a non-negative integer. -/
def base2_magn (x : Int) : Int := (sizeAux x.toNat x.toNat : Int)

/-- `_mpf_base2_magn`: the binary magnitude of `int(x) + 1`. -/
def mpf_base2_magn (x : ℚ) : Int := base2_magn (pyInt x + 1)

/-- `_prec_offset`: the per-step correction to the precision offset. -/
def prec_offset (Bn Bn_1 : IntPoly) : Int :=
  base2_magn Bn.max_abs_coef - base2_magn Bn_1.max_abs_coef

/-- `_calc_Bn`: computes the next iterate into a fresh array of length
`min_poly._deg` (maximum degree `deg - 1`): zero the array, write `-cn`
at position `0`, shift the previous coefficients up by one, and if the
coefficient of `B_{n-1}` at position `deg - 1` is nonzero subtract
`leading_coef * min_poly` coefficientwise. -/
def calc_Bn (Bn_1 : IntPoly) (cn : Int) (min_poly : IntPoly) : IntPoly :=
  let min_poly_deg : Nat := min_poly.deg.toNat
  let Bn_1_deg : Int := Bn_1.deg
  let Bn_1_leading_coef : Int := Bn_1.getCoef (min_poly_deg - 1)
  let a0 : List Int := List.replicate min_poly_deg 0
  let a1 : List Int := a0.set 0 (-cn)
  let copyLen : Nat := min (min_poly_deg - 1) (Bn_1_deg + 1).toNat
  let a2 : List Int :=
    (List.range copyLen).foldl (fun a i => a.set (i + 1) (Bn_1.getCoef i)) a1
  let a3 : List Int :=
    if Bn_1_leading_coef ≠ 0 then
      (List.range min_poly_deg).foldl
        (fun a i => a.set i (a.getD i 0 - Bn_1_leading_coef * min_poly.getCoef i)) a2
    else a2
  ⟨a3⟩

/-! ## `_calc_minimal_period` (claims C2, C7) -/

/-- The candidate period lengths tried by `_calc_minimal_period`:
`period_len` ranges over `range(1, 2 + k // 2)`, is kept when it divides
`k` or equals `1 + k // 2`, and in the latter case is replaced by `k`. -/
def periodCandidates (k : Nat) : List Nat :=
  ((List.range' 1 (k / 2 + 1)).filter
      (fun p => decide (k % p = 0) || decide (p = 1 + k / 2))).map
    (fun p => if p = 1 + k / 2 then k else p)

/-- The pre-period scan of `_calc_minimal_period`: enumerate the stored
iterates `B_1, ..., B_k` zipped against `B_{p+1}, ..., B_{k+p}` and break
at the first equal pair; if no pair matches the loop falls through with
the last enumeration index `k - 1`. -/
def findPreperiod (k p : Nat) (B : Nat → IntPoly) : Nat :=
  match (List.range k).find? (fun m => (B (m + 1)).c_eq (B (m + p + 1))) with
  | some m => m
  | none => k - 1

/-- `_calc_minimal_period`: find the first candidate period `p` with
`Bk == B_{k+p}` (raising, modelled as `none`, when there is none), then
scan for the pre-period. -/
def calc_minimal_period (k : Nat) (Bk : IntPoly) (B : Nat → IntPoly) :
    Option (Nat × Nat) :=
  match (periodCandidates k).find? (fun p => Bk.c_eq (B (k + p))) with
  | none => none
  | some p => some (findPreperiod k p B, p)

/-! ## Block storage model and `_cleanup_register` (claim C3) -/

/-- A stored block: its absolute 1-indexed start and its segment. -/
structure Blk (α : Type) where
  startn : Nat
  seg : List α
  deriving DecidableEq, Repr

/-- The logical sequence held by a list of blocks, in block order. -/
def storeConcat {α : Type} : List (Blk α) → List α
  | [] => []
  | b :: rest => b.seg ++ storeConcat rest

/-- Blocks partition a contiguous 1-indexed range starting at `s`. -/
def contiguousFromB {α : Type} (s : Nat) : List (Blk α) → Bool
  | [] => true
  | b :: rest => (b.startn == s) && contiguousFromB (s + b.seg.length) rest

/-- The truncation loop of `_cleanup_register` over one orbit register:
blocks wholly past the principal length are removed, the block straddling
the boundary is replaced by its prefix slice, and the rest are kept. -/
def cleanupStore {α : Type} (principal : Nat) (bs : List (Blk α)) :
    List (Blk α) :=
  bs.filterMap fun b =>
    if (principal : Int) < (b.startn : Int) then none
    else if (principal : Int) < (b.startn : Int) + (b.seg.length : Int) - 1 then
      some ⟨b.startn, b.seg.take (principal - b.startn + 1)⟩
    else some b

/-- The persisted registers of one orbit: polynomial store, digit store,
OrbitStatus triple and PeriodicityRecord pair. -/
structure Regs where
  polyStore : List (Blk IntPoly)
  coefStore : List (Blk Int)
  status : Int × Int × Int
  periodic : Int × Int
  deriving DecidableEq, Repr

/-- `_set_periodic_info`: status becomes the periodic sentinel and the
periodicity record is written. -/
def set_periodic_info (preperiod_len period_len : Nat) (r : Regs) : Regs :=
  { r with
    status := (-1, -1, -1)
    periodic := ((preperiod_len : Int), (period_len : Int)) }

/-- `_cleanup_register`: truncate the polynomial store to
`period_len + preperiod_len` and the digit store to
`period_len + (preperiod_len + 1)`, then write the periodic records. -/
def cleanup_register (preperiod_len period_len : Nat) (r : Regs) : Regs :=
  set_periodic_info preperiod_len period_len
    { r with
      polyStore := cleanupStore (period_len + preperiod_len) r.polyStore
      coefStore := cleanupStore (period_len + (preperiod_len + 1)) r.coefStore }

/-! ## The orbit machine: `_single_orbit` in adaptive-precision mode

The arbitrary-precision evaluation `xi = beta0 * B_{n-1}(1)` at a working
precision, and the `almosteq` test of `_incr_prec` at the convergence
precision, are abstracted into the oracle fields `xiAt` and `amb`: the
engine's control flow depends on them only through the returned values. -/

/-- Static parameters of one `_single_orbit` invocation (adaptive mode,
`constant_x_dps = constant_y_dps = -1`). -/
structure Params where
  min_poly : IntPoly
  beta0 : ℚ
  max_blk_len : Nat
  max_poly_orbit_len : Nat
  maxPrec : Int
  amb : ℚ → Int → Bool
  xiAt : IntPoly → Int → ℚ

namespace Params

/-- `beta.deg`, the degree of the minimal polynomial. -/
def deg (P : Params) : Nat := P.min_poly.deg.toNat

/-- `beta0_ceil = int(mpmath.ceil(beta0))`. -/
def beta0_ceil (P : Params) : Int := ratCeil P.beta0

/-- `B0 = IntPolynomial(0).set([1])`, the constant-one polynomial. -/
def B0 (_P : Params) : IntPoly := ⟨[1]⟩

/-- `B1 = IntPolynomial(1).set([-int(beta0), 1])`, the degree-1 iterate
`x - c_1`. -/
def B1 (P : Params) : IntPoly := ⟨[-(pyInt P.beta0), 1]⟩

/-- The seed iterate for a fresh orbit: a zero polynomial of maximum
degree `deg - 1` with constant coefficient `1`. -/
def seedB0 (P : Params) : IntPoly := ⟨1 :: List.replicate (P.deg - 1) 0⟩

end Params

/-- `x_prec_lower_bound`: `1` when `deg = 2`, otherwise the
Lagrange-remainder bound, raised to `1` when non-positive. -/
def x_prec_lower_bound (P : Params) : Int :=
  let lb : Int :=
    if P.deg = 2 then 1
    else 2 + 2 * base2_magn ((P.deg : Int) - 1) - base2_magn (P.deg : Int)
  if lb ≤ 0 then 1 else lb

/-- The `x_y_prec_offset` formula of the startup code (lines 628-633),
as a function of the current iterate. -/
def offsetF (P : Params) (b : IntPoly) : Int :=
  1 + 2 * base2_magn (P.deg : Int) + base2_magn b.max_abs_coef
    + (P.deg : Int) * base2_magn (P.beta0_ceil + 1)

/-- In-memory state entering the loop iteration for step `n`. -/
structure LoopState where
  n : Nat
  Bn_1 : IntPoly
  offset : Int
  coefBlk : Blk Int
  polyBlk : Blk IntPoly
  cursor : Nat
  regs : Regs
  deriving DecidableEq, Repr

/-- A register read across the persisted blocks followed by the RAM
block's segment (the `poly_orbit_reg` view with `add_ram_blk` applied),
1-indexed. -/
def orbitGet (r : Regs) (ram : List IntPoly) (i : Nat) : IntPoly :=
  (storeConcat r.polyStore ++ ram).getD (i - 1) ⟨[]⟩

/-- Why a `_single_orbit` invocation returned. -/
inductive Reason
  | overflowed
  | precFail
  | simpleParry
  | shortcutB1
  | shortcutB0
  | periodFound (k m p : Nat)
  | lenExhausted
  deriving DecidableEq, Repr

/-- Result of one loop iteration. -/
inductive StepOut
  | done (why : Reason) (regs : Regs)
  | cerr (regs : Regs)
  | fuelOut (st : LoopState)
  | cont (st : LoopState) (ck : Bool)
  deriving DecidableEq, Repr

def flushCoef (r : Regs) (b : Blk Int) : Regs :=
  { r with coefStore := r.coefStore ++ [b] }

def flushPoly (r : Regs) (b : Blk IntPoly) : Regs :=
  { r with polyStore := r.polyStore ++ [b] }

def setStatus (r : Regs) (v : Int × Int × Int) : Regs := { r with status := v }

/-- Flush both buffers when nonempty (the common abort path). -/
def flushBoth (r : Regs) (cb : Blk Int) (pb : Blk IntPoly) : Regs :=
  let r1 := if 0 < cb.seg.length then flushCoef r cb else r
  if 0 < pb.seg.length then flushPoly r1 pb else r1

/-- `_incr_prec` at the convergence precision: true when `xi < 0` or the
fractional part is `almosteq` to `0` or `1` (the latter abstracted by the
`amb` oracle). -/
def incr_prec (P : Params) (xi : ℚ) (y : Int) : Bool :=
  decide (xi < 0) || P.amb xi y

/-- The escalation step (lines 742-750): `y` doubles, `x` is reset to
`y + offset`, and both are clamped when `x` would reach the ceiling. -/
def escalStep (offset maxPrec : Int) (y : Int) : Int × Int :=
  let y1 := y * 2
  let x1 := y1 + offset
  if maxPrec ≤ x1 then (maxPrec, maxPrec - offset) else (x1, y1)

/-- The per-step precision initialization (lines 679-690): `y = 16`,
`x = y + offset` clamped into `[x_prec_lower_bound, maxPrec]` (with `y`
readjusted when `x` is clamped to the ceiling). -/
def stepInitPrec (P : Params) (offset : Int) : Int × Int :=
  let y : Int := 16
  let x := y + offset
  if x < x_prec_lower_bound P then (x_prec_lower_bound P, y)
  else if x > P.maxPrec then (P.maxPrec, P.maxPrec - offset)
  else (x, y)

/-- The fallback policy at the precision ceiling (lines 752-816): abort
when `xi < 0`; otherwise round the digit tentatively, record a failure
status when it rounds to zero (without returning), form `B_n`, and either
finish as a simple Parry number when `B_n` is identically zero or abort. -/
def fallbackPhase (P : Params) (st : LoopState) (xi : ℚ) : StepOut :=
  let n := st.n
  if xi < 0 then
    .done .precFail
      (setStatus (flushBoth st.regs st.coefBlk st.polyBlk)
        ((n : Int) - 1, (n : Int), -1))
  else
    let cn := mp_round xi
    let r0 := if cn = 0 then setStatus st.regs ((n : Int) - 1, (n : Int), -1)
              else st.regs
    let Bn := calc_Bn st.Bn_1 cn P.min_poly
    if (List.range P.deg).any (fun j => !(Bn.coefs.getD j 0 == 0)) then
      .done .precFail
        (setStatus (flushBoth r0 st.coefBlk st.polyBlk)
          ((n : Int) - 1, (n : Int), -1))
    else
      let coefSeg1 := st.coefBlk.seg ++ [cn]
      let mid :=
        if P.max_blk_len ≤ coefSeg1.length then
          (Blk.mk (st.coefBlk.startn + coefSeg1.length) ([] : List Int),
            flushCoef r0 ⟨st.coefBlk.startn, coefSeg1⟩)
        else (Blk.mk st.coefBlk.startn coefSeg1, r0)
      let coefSeg3 := mid.1.seg ++ [0]
      let polySeg1 := st.polyBlk.seg ++ [Bn]
      let r2 := if 0 < coefSeg3.length then
          flushCoef mid.2 ⟨mid.1.startn, coefSeg3⟩ else mid.2
      let r3 := if 0 < polySeg1.length then
          flushPoly r2 ⟨st.polyBlk.startn, polySeg1⟩ else r2
      .done .simpleParry (cleanup_register (n - 1) 1 r3)

/-- One iteration of the inner precision loop (lines 715-750). -/
inductive InnerOut
  | overflow (regs : Regs)
  | escal (x y : Int)
  | fall (out : StepOut)
  | exitLoop (xi : ℚ)
  deriving DecidableEq

def innerIter (P : Params) (st : LoopState) (x y : Int) : InnerOut :=
  let xi := P.xiAt st.Bn_1 x
  if 61 ≤ mpf_base2_magn xi then
    .overflow
      (setStatus (flushBoth st.regs st.coefBlk st.polyBlk)
        ((st.n : Int) - 1, -1, (st.n : Int)))
  else if incr_prec P xi y then
    if x < P.maxPrec then
      .escal (escalStep st.offset P.maxPrec y).1 (escalStep st.offset P.maxPrec y).2
    else
      .fall (fallbackPhase P st xi)
  else
    .exitLoop xi

/-- Result of running the inner loop to completion. -/
inductive LoopRes
  | out (o : StepOut)
  | exitXi (xi : ℚ)
  deriving DecidableEq

def innerLoop (P : Params) (st : LoopState) : Nat → Int → Int → LoopRes
  | 0, _, _ => .out (.fuelOut st)
  | fuel + 1, x, y =>
      match innerIter P st x y with
      | .overflow r => .out (.done .overflowed r)
      | .escal x' y' => innerLoop P st fuel x' y'
      | .fall o => .out o
      | .exitLoop xi => .exitXi xi

/-- The accepted-step tail of the loop body (lines 818-904): digit
plausibility check, `B_n` computation, the two immediate termination
checks, the half-speed period detection on even `n`, and the checkpoint
flush. -/
def acceptPhase (P : Params) (st : LoopState) (xi : ℚ) : StepOut :=
  let n := st.n
  let cn := calc_cn xi
  if P.beta0 < (cn : ℚ) then
    .done .precFail
      (setStatus (flushBoth st.regs st.coefBlk st.polyBlk)
        ((n : Int) - 1, (n : Int), -1))
  else
    let Bn := calc_Bn st.Bn_1 cn P.min_poly
    let coefSeg1 := st.coefBlk.seg ++ [cn]
    if 2 ≤ n ∧ Bn.c_eq P.B1 = true then
      let r1 := if 0 < st.polyBlk.seg.length then flushPoly st.regs st.polyBlk
                else st.regs
      let r2 := flushCoef r1 ⟨st.coefBlk.startn, coefSeg1⟩
      .done .shortcutB1 (set_periodic_info 0 (n - 1) r2)
    else if Bn.c_eq P.B0 = true then
      let r1 := if 0 < st.polyBlk.seg.length then flushPoly st.regs st.polyBlk
                else st.regs
      let r2 := flushCoef r1 ⟨st.coefBlk.startn, coefSeg1⟩
      .done .shortcutB0 (set_periodic_info 0 n r2)
    else
      let polySeg1 := st.polyBlk.seg ++ [Bn]
      let offset' := st.offset + prec_offset Bn st.Bn_1
      let k := n / 2
      let nEven := 2 * k = n
      let Bk := orbitGet st.regs polySeg1 st.cursor
      let cursor' := if nEven then st.cursor + 1 else st.cursor
      if nEven ∧ Bk.c_eq Bn = true then
        match calc_minimal_period k Bk (orbitGet st.regs polySeg1) with
        | none => .cerr st.regs
        | some (m, p) =>
            let principal := m + p
            let r1 := if (st.coefBlk.startn : Int) ≤ (principal : Int) then
                flushCoef st.regs ⟨st.coefBlk.startn, coefSeg1⟩ else st.regs
            let r2 := if (st.polyBlk.startn : Int) ≤ (principal : Int) + 1 then
                flushPoly r1 ⟨st.polyBlk.startn, polySeg1⟩ else r1
            .done (.periodFound k m p) (cleanup_register m p r2)
      else
        if P.max_blk_len ≤ coefSeg1.length then
          let r1 := flushCoef st.regs ⟨st.coefBlk.startn, coefSeg1⟩
          let r2 := flushPoly r1 ⟨st.polyBlk.startn, polySeg1⟩
          let r3 := setStatus r2 ((n : Int), -1, -1)
          .cont
            { n := n + 1
              Bn_1 := Bn
              offset := offset'
              coefBlk := ⟨st.coefBlk.startn + coefSeg1.length, []⟩
              polyBlk := ⟨st.polyBlk.startn + polySeg1.length, []⟩
              cursor := cursor'
              regs := r3 } true
        else
          .cont
            { n := n + 1
              Bn_1 := Bn
              offset := offset'
              coefBlk := ⟨st.coefBlk.startn, coefSeg1⟩
              polyBlk := ⟨st.polyBlk.startn, polySeg1⟩
              cursor := cursor'
              regs := st.regs } false

/-- The fuel supplied to the inner precision loop; a deterministic
function of the state, ample for the doubling escalation. -/
def innerFuel (P : Params) (st : LoopState) : Nat :=
  (P.maxPrec - st.offset).toNat + 2

/-- One full iteration of the orbit loop for step `st.n`. -/
def stepN (P : Params) (st : LoopState) : StepOut :=
  let xy := stepInitPrec P st.offset
  match innerLoop P st (innerFuel P st) xy.1 xy.2 with
  | .out o => o
  | .exitXi xi => acceptPhase P st xi

/-- Result of a `_single_orbit` invocation. -/
inductive RunOut
  | noop (r : Regs)
  | errVal (r : Regs)
  | earlyPrec (r : Regs)
  | finished (why : Reason) (r : Regs)
  | cerr (r : Regs)
  | ck (r : Regs)
  | fuelOut (r : Regs)
  deriving DecidableEq, Repr

/-- The bounded orbit loop (lines 677-914): iterate `stepN` from the
resume point up to the maximum orbit length, finishing with the final
flush and the resumable status; with `stopCk` the run is interrupted
right after a checkpoint flush, returning the persisted registers. -/
def runLoop (P : Params) (stopCk : Bool) : Nat → LoopState → RunOut
  | fuel, st =>
    if P.max_poly_orbit_len < st.n then
      .finished .lenExhausted
        (setStatus (flushBoth st.regs st.coefBlk st.polyBlk)
          ((P.max_poly_orbit_len : Int), -1, -1))
    else
      match fuel with
      | 0 => .fuelOut st.regs
      | fuel + 1 =>
          match stepN P st with
          | .done why r => .finished why r
          | .cerr r => .cerr r
          | .fuelOut st' => .fuelOut st'.regs
          | .cont st' ck =>
              if stopCk && ck then .ck st'.regs
              else runLoop P stopCk fuel st'

/-- Startup of `_single_orbit` (lines 546-675): the idempotence guard on
overflow and periodicity records, the resume/fresh branch rebuilding the
in-memory state, the lower-bound sanity check, and the (vacuous for
`maxPrec ≥ 0`) early precision check of line 653. -/
inductive StartOut
  | noop (r : Regs)
  | errVal (r : Regs)
  | earlyPrec (r : Regs)
  | ready (st : LoopState)
  deriving DecidableEq

def startOrbit (P : Params) (r : Regs) : StartOut :=
  let last_len := r.status.1
  let last_ovf := r.status.2.2
  if last_ovf ≠ -1 then .noop r
  else if r.periodic.1 ≠ -1 then .noop r
  else
    let startn : Int := last_len + 1
    let nstart : Nat := startn.toNat
    let st0 :=
      if 1 < startn then
        { n := nstart
          Bn_1 := orbitGet r [] (nstart - 1)
          offset := offsetF P (orbitGet r [] (nstart - 1))
          coefBlk := ⟨nstart, []⟩
          polyBlk := ⟨nstart, []⟩
          cursor := (nstart + 1) / 2
          regs := r : LoopState }
      else
        { n := nstart
          Bn_1 := P.seedB0
          offset := offsetF P P.seedB0
          coefBlk := ⟨nstart, []⟩
          polyBlk := ⟨nstart, []⟩
          cursor := 1
          regs := r : LoopState }
    if P.maxPrec < x_prec_lower_bound P then .errVal r
    else if P.maxPrec < 0 then
      .earlyPrec (setStatus r (startn - 1, startn, -1))
    else .ready st0

/-- One `_single_orbit` invocation. -/
def singleOrbit (P : Params) (stopCk : Bool) (r : Regs) : RunOut :=
  match startOrbit P r with
  | .noop r' => .noop r'
  | .errVal r' => .errVal r'
  | .earlyPrec r' => .earlyPrec r'
  | .ready st => runLoop P stopCk (P.max_poly_orbit_len + 1) st

/-- Repeatedly resume after each checkpoint interruption. -/
def resumeLoop (P : Params) : Nat → RunOut → RunOut
  | 0, o => o
  | fuel + 1, o =>
      match o with
      | .ck r => resumeLoop P fuel (singleOrbit P true r)
      | o => o

/-- Run the orbit interrupting after every checkpoint flush and resuming. -/
def runInterrupted (P : Params) (r : Regs) (fuel : Nat) : RunOut :=
  resumeLoop P fuel (singleOrbit P true r)

/-- The in-memory bookkeeping invariant of the orbit loop: the offset
carries the startup formula of the current iterate, the half-speed cursor
sits at `(n+1)/2`, the buffers continue the stores contiguously up to
step `n - 1`, the status is the resumable `(startn - 1, -1, -1)`, no
periodicity is recorded, and the last persisted-or-buffered polynomial is
the current iterate. -/
def Inv (P : Params) (st : LoopState) : Prop :=
  1 ≤ st.n
  ∧ st.offset = offsetF P st.Bn_1
  ∧ st.cursor = (st.n + 1) / 2
  ∧ st.coefBlk.startn + st.coefBlk.seg.length = st.n
  ∧ st.polyBlk.startn + st.polyBlk.seg.length = st.n
  ∧ (storeConcat st.regs.coefStore).length + st.coefBlk.seg.length = st.n - 1
  ∧ (storeConcat st.regs.polyStore).length + st.polyBlk.seg.length = st.n - 1
  ∧ st.regs.status = ((st.coefBlk.startn : Int) - 1, -1, -1)
  ∧ st.regs.periodic = (-1, -1)
  ∧ (2 ≤ st.n →
      (storeConcat st.regs.polyStore ++ st.polyBlk.seg).getLast? = some st.Bn_1)

/-! ## Theorems -/

/-! ## Basic lemmas on coefficient arrays -/

theorem ratFloor_eq (x : ℚ) : ratFloor x = ⌊x⌋ := by
  rw [ratFloor, Int.fdiv_eq_ediv _ (Int.natCast_nonneg x.den), Rat.floor_def]

theorem ratCeil_eq (x : ℚ) : ratCeil x = ⌈x⌉ := by
  rw [ratCeil, ratFloor_eq, Int.floor_neg, neg_neg]

theorem size_div2 (n : Nat) (h : 0 < n) : Nat.size n = Nat.size (n / 2) + 1 := by
  apply le_antisymm
  · rw [Nat.size_le]
    have h1 := Nat.lt_size_self (n / 2)
    have h2 : 2 ^ (Nat.size (n / 2) + 1) = 2 ^ Nat.size (n / 2) * 2 :=
      pow_succ 2 _
    omega
  · have hlt : Nat.size (n / 2) < Nat.size n := by
      rw [Nat.lt_size]
      rcases Nat.lt_or_ge n 2 with h2 | h2
      · have : n = 1 := by omega
        subst this
        simp
      · have hpos : 0 < n / 2 := by omega
        have hs : 0 < Nat.size (n / 2) := Nat.size_pos.mpr hpos
        have h3 : 2 ^ (Nat.size (n / 2) - 1) ≤ n / 2 := by
          rw [← Nat.lt_size]
          omega
        have h4 : 2 ^ Nat.size (n / 2) = 2 ^ (Nat.size (n / 2) - 1) * 2 := by
          rw [← pow_succ]
          congr 1
          omega
        omega
    omega

theorem sizeAux_eq_size : ∀ (fuel n : Nat), n ≤ fuel → sizeAux fuel n = Nat.size n
  | 0, n, h => by
      have : n = 0 := by omega
      subst this
      simp [sizeAux]
  | fuel + 1, n, h => by
      by_cases hn : n = 0
      · subst hn
        simp [sizeAux]
      · rw [sizeAux, if_neg hn]
        have hlt : n / 2 ≤ fuel := by omega
        rw [sizeAux_eq_size fuel (n / 2) hlt]
        have hpos : 0 < n := Nat.pos_of_ne_zero hn
        rw [← size_div2 n hpos]

theorem base2_magn_eq_size (x : Int) :
    base2_magn x = (Nat.size x.toNat : Int) := by
  rw [base2_magn, sizeAux_eq_size _ _ (le_refl _)]

theorem calc_deg_neg_one_le (l : List Int) : -1 ≤ calc_deg l := by
  induction l with
  | nil => simp [calc_deg]
  | cons c rest ih =>
      simp only [calc_deg]
      split
      · omega
      · split <;> omega

theorem calc_deg_lt_length (l : List Int) : calc_deg l < (l.length : Int) := by
  induction l with
  | nil => simp [calc_deg]
  | cons c rest ih =>
      simp only [calc_deg, List.length_cons]
      split
      · omega
      · split <;> omega

theorem getD_eq_zero_of_calc_deg_lt (l : List Int) (i : Nat)
    (h : calc_deg l < (i : Int)) : l.getD i 0 = 0 := by
  induction l generalizing i with
  | nil => simp
  | cons c rest ih =>
      cases i with
      | zero =>
          simp only [calc_deg] at h
          have hrest := calc_deg_neg_one_le rest
          by_cases hd : 0 ≤ calc_deg rest
          · rw [if_pos hd] at h; omega
          · rw [if_neg hd] at h
            by_cases hc : c = 0
            · simpa using hc
            · rw [if_pos hc] at h; omega
      | succ j =>
          simp only [List.getD_cons_succ]
          apply ih
          simp only [calc_deg] at h
          have hrest := calc_deg_neg_one_le rest
          by_cases hd : 0 ≤ calc_deg rest
          · rw [if_pos hd] at h; omega
          · rw [if_neg hd] at h
            split at h <;> omega

theorem getD_set_iff (l : List Int) (k : Nat) (v : Int) (j : Nat) :
    (l.set k v).getD j 0 = if k = j ∧ k < l.length then v else l.getD j 0 := by
  induction l generalizing k j with
  | nil => simp
  | cons c rest ih =>
      cases k with
      | zero =>
          cases j with
          | zero => simp
          | succ j' => simp
      | succ k' =>
          cases j with
          | zero => simp
          | succ j' =>
              simp only [List.set_cons_succ, List.getD_cons_succ, ih,
                List.length_cons]
              by_cases hkj : k' = j'
              · subst hkj
                by_cases hl : k' < rest.length
                · rw [if_pos ⟨rfl, hl⟩, if_pos (by omega)]
                · rw [if_neg (by omega), if_neg (by omega)]
              · rw [if_neg (by omega), if_neg (by omega)]

theorem getD_replicate_zero (n j : Nat) :
    (List.replicate n (0 : Int)).getD j 0 = 0 := by
  induction n generalizing j with
  | zero => simp
  | succ m ih =>
      cases j with
      | zero => simp [List.replicate_succ]
      | succ j' => simp [List.replicate_succ, ih]

theorem eval_eq_sum (p : IntPoly) (x : ℚ) :
    p.eval x = ∑ i ∈ Finset.range p.coefs.length, (p.coefs.getD i 0 : ℚ) * x ^ i := by
  obtain ⟨l⟩ := p
  show l.foldr (fun (c : Int) (acc : ℚ) => (c : ℚ) + x * acc) 0 = _
  induction l with
  | nil => simp
  | cons c rest ih =>
      simp only [List.foldr_cons, List.length_cons]
      rw [Finset.sum_range_succ', ih, Finset.mul_sum]
      simp only [List.getD_cons_succ, List.getD_cons_zero, pow_zero, mul_one]
      rw [add_comm]
      congr 1
      refine Finset.sum_congr rfl ?_
      intro i _
      ring

/-! ## Characterization of `_calc_Bn` -/

theorem copy_loop_length (src : Nat → Int) (m : Nat) (l : List Int) :
    ((List.range m).foldl (fun a i => a.set (i + 1) (src i)) l).length
      = l.length := by
  induction m generalizing l with
  | zero => simp
  | succ m' ih =>
      rw [List.range_succ, List.foldl_append, List.foldl_cons, List.foldl_nil,
        List.length_set]
      exact ih l

theorem copy_loop_getD (src : Nat → Int) (m : Nat) (l : List Int) (j : Nat) :
    ((List.range m).foldl (fun a i => a.set (i + 1) (src i)) l).getD j 0
      = if 1 ≤ j ∧ j ≤ m ∧ j < l.length then src (j - 1) else l.getD j 0 := by
  induction m generalizing j with
  | zero =>
      simp only [List.range_zero, List.foldl_nil]
      rw [if_neg (by omega)]
  | succ m' ih =>
      rw [List.range_succ, List.foldl_append, List.foldl_cons, List.foldl_nil,
        getD_set_iff, copy_loop_length, ih]
      by_cases hj : m' + 1 = j
      · by_cases hlen : m' + 1 < l.length
        · rw [if_pos ⟨hj, hlen⟩, if_pos (by omega)]
          subst hj
          simp
        · rw [if_neg (by omega), if_neg (by omega), if_neg (by omega)]
      · rw [if_neg (by omega)]
        by_cases h1 : 1 ≤ j ∧ j ≤ m' ∧ j < l.length
        · rw [if_pos h1, if_pos (by omega)]
        · rw [if_neg h1, if_neg (by omega)]

theorem sub_loop_length (q : Nat → Int) (lead : Int) (m : Nat) (l : List Int) :
    ((List.range m).foldl (fun a i => a.set i (a.getD i 0 - lead * q i)) l).length
      = l.length := by
  induction m generalizing l with
  | zero => simp
  | succ m' ih =>
      rw [List.range_succ, List.foldl_append, List.foldl_cons, List.foldl_nil,
        List.length_set]
      exact ih l

theorem sub_loop_getD (q : Nat → Int) (lead : Int) (m : Nat) (l : List Int) (j : Nat) :
    ((List.range m).foldl (fun a i => a.set i (a.getD i 0 - lead * q i)) l).getD j 0
      = if j < m ∧ j < l.length then l.getD j 0 - lead * q j else l.getD j 0 := by
  induction m generalizing j with
  | zero =>
      simp only [List.range_zero, List.foldl_nil]
      rw [if_neg (by omega)]
  | succ m' ih =>
      rw [List.range_succ, List.foldl_append, List.foldl_cons, List.foldl_nil,
        getD_set_iff, sub_loop_length, ih m', ih j]
      rw [if_neg (by omega : ¬(m' < m' ∧ m' < l.length))]
      by_cases hj : m' = j
      · by_cases hlen : m' < l.length
        · rw [if_pos ⟨hj, hlen⟩, if_pos (by omega)]
          subst hj; rfl
        · rw [if_neg (by omega), if_neg (by omega), if_neg (by omega)]
      · rw [if_neg (by omega)]
        by_cases h1 : j < m' ∧ j < l.length
        · rw [if_pos h1, if_pos (by omega)]
        · rw [if_neg h1, if_neg (by omega)]

theorem calc_Bn_length (Bn_1 : IntPoly) (cn : Int) (mp : IntPoly) :
    (calc_Bn Bn_1 cn mp).coefs.length = mp.deg.toNat := by
  simp only [calc_Bn]
  split
  · rw [sub_loop_length, copy_loop_length, List.length_set, List.length_replicate]
  · rw [copy_loop_length, List.length_set, List.length_replicate]

/-- The coefficients produced by `_calc_Bn`: position `0` holds `-cn`,
position `j ≥ 1` holds the shifted coefficient of `B_{n-1}`, and the
leading coefficient times the minimal polynomial is subtracted throughout
(a no-op when that coefficient is zero, matching the skipped branch). -/
theorem calc_Bn_getCoef (Bn_1 : IntPoly) (cn : Int) (mp : IntPoly)
    (deg : Nat) (hdeg : mp.deg.toNat = deg) (j : Nat) (hj : j < deg) :
    (calc_Bn Bn_1 cn mp).getCoef j
      = (if j = 0 then -cn else Bn_1.getCoef (j - 1))
          - Bn_1.getCoef (deg - 1) * mp.getCoef j := by
  have shift_val :
      ∀ jj : Nat, jj < deg →
        (((List.range (min (deg - 1) (Bn_1.deg + 1).toNat)).foldl
          (fun a i => a.set (i + 1) (Bn_1.getCoef i))
          ((List.replicate deg (0 : Int)).set 0 (-cn))).getD jj 0)
        = if jj = 0 then -cn else Bn_1.getCoef (jj - 1) := by
    intro jj hjj
    rw [copy_loop_getD]
    rw [List.length_set, List.length_replicate]
    by_cases h0 : jj = 0
    · subst h0
      simp only [Nat.le_zero, Nat.one_le_iff_ne_zero, ne_eq, not_true_eq_false,
        false_and, if_false, if_true]
      rw [getD_set_iff]
      simp only [List.length_replicate]
      have : 0 < deg := hjj
      simp [this]
    · simp only [h0, if_false]
      by_cases hcopy : 1 ≤ jj ∧ jj ≤ min (deg - 1) (Bn_1.deg + 1).toNat ∧ jj < deg
      · simp [hcopy]
      · have h1 : 1 ≤ jj := by omega
        have hgt : ¬ jj ≤ min (deg - 1) (Bn_1.deg + 1).toNat := by
          intro hc; exact hcopy ⟨h1, hc, hjj⟩
        simp only [hcopy, if_false]
        rw [getD_set_iff]
        simp only [List.length_replicate]
        have hne : ¬ (0 = jj ∧ 0 < deg) := by
          intro hc; exact h0 hc.1.symm
        rw [if_neg hne, getD_replicate_zero]
        -- above the copied range the source coefficient is zero
        have hsrc : Bn_1.getCoef (jj - 1) = 0 := by
          have hmin : min (deg - 1) (Bn_1.deg + 1).toNat < jj := by omega
          have hjd : jj ≤ deg - 1 := by omega
          have hup : (Bn_1.deg + 1).toNat < jj := by omega
          apply getD_eq_zero_of_calc_deg_lt
          have hd1 := calc_deg_neg_one_le Bn_1.coefs
          show calc_deg Bn_1.coefs < ((jj - 1 : Nat) : Int)
          have hdd : IntPoly.deg Bn_1 = calc_deg Bn_1.coefs := rfl
          rw [IntPoly.deg] at hup
          omega
        rw [hsrc]
  have hun : (calc_Bn Bn_1 cn mp).coefs
      = (if Bn_1.getCoef (mp.deg.toNat - 1) ≠ 0 then
          (List.range mp.deg.toNat).foldl
            (fun a i =>
              a.set i (a.getD i 0 - Bn_1.getCoef (mp.deg.toNat - 1) * mp.getCoef i))
            ((List.range (min (mp.deg.toNat - 1) (Bn_1.deg + 1).toNat)).foldl
              (fun a i => a.set (i + 1) (Bn_1.getCoef i))
              ((List.replicate mp.deg.toNat (0 : Int)).set 0 (-cn)))
        else
          (List.range (min (mp.deg.toNat - 1) (Bn_1.deg + 1).toNat)).foldl
            (fun a i => a.set (i + 1) (Bn_1.getCoef i))
            ((List.replicate mp.deg.toNat (0 : Int)).set 0 (-cn))) := rfl
  show (calc_Bn Bn_1 cn mp).coefs.getD j 0 = _
  rw [hun, hdeg]
  by_cases hlead : Bn_1.getCoef (deg - 1) ≠ 0
  · rw [if_pos hlead,
      sub_loop_getD (fun i => mp.getCoef i) (Bn_1.getCoef (deg - 1)) deg,
      copy_loop_length, List.length_set, List.length_replicate,
      if_pos ⟨hj, hj⟩, shift_val j hj]
  · rw [if_neg hlead, shift_val j hj]
    push_neg at hlead
    rw [hlead, zero_mul, sub_zero]

theorem getCoef_eq (p : IntPoly) (i : Nat) : p.coefs.getD i 0 = p.getCoef i := rfl

/-- Evaluation identity for `_calc_Bn`: the produced array represents the
polynomial `x*B_{n-1}(x) - c_n - leading_coef * min_poly(x)`, the long
division step of the recurrence. -/
theorem calc_Bn_eval (Bn_1 mp : IntPoly) (cn : Int) (deg : Nat)
    (hdeg1 : 1 ≤ deg)
    (hmp_len : mp.coefs.length = deg + 1)
    (hmp_deg : mp.deg.toNat = deg)
    (hmonic : mp.getCoef deg = 1)
    (hb_len : Bn_1.coefs.length = deg) (x : ℚ) :
    (calc_Bn Bn_1 cn mp).eval x
      = x * Bn_1.eval x - (cn : ℚ) - (Bn_1.getCoef (deg - 1) : ℚ) * mp.eval x := by
  obtain ⟨d, rfl⟩ : ∃ d, deg = d + 1 := ⟨deg - 1, by omega⟩
  simp only [Nat.add_sub_cancel] at *
  rw [eval_eq_sum, eval_eq_sum, eval_eq_sum, calc_Bn_length, hmp_len, hb_len,
    hmp_deg]
  simp only [getCoef_eq]
  have key : ∀ j ∈ Finset.range (d + 1),
      ((calc_Bn Bn_1 cn mp).getCoef j : ℚ) * x ^ j
        = ((if j = 0 then (-cn : ℚ) else (Bn_1.getCoef (j - 1) : ℚ)) * x ^ j
            - (Bn_1.getCoef d : ℚ) * ((mp.getCoef j : ℚ) * x ^ j)) := by
    intro j hj
    rw [calc_Bn_getCoef Bn_1 cn mp (d + 1) hmp_deg j (Finset.mem_range.mp hj)]
    simp only [Nat.add_sub_cancel]
    push_cast [apply_ite (fun (z : Int) => (z : ℚ))]
    ring
  rw [Finset.sum_congr rfl key, Finset.sum_sub_distrib, ← Finset.mul_sum]
  have t1 : ∑ j ∈ Finset.range (d + 1),
      (if j = 0 then (-cn : ℚ) else (Bn_1.getCoef (j - 1) : ℚ)) * x ^ j
        = (∑ i ∈ Finset.range d, (Bn_1.getCoef i : ℚ) * x ^ (i + 1)) - cn := by
    rw [Finset.sum_range_succ']
    simp only [Nat.succ_ne_zero, if_false, Nat.add_sub_cancel, if_true,
      pow_zero, mul_one]
    ring
  have t2 : x * ∑ i ∈ Finset.range (d + 1), (Bn_1.getCoef i : ℚ) * x ^ i
      = (∑ i ∈ Finset.range d, (Bn_1.getCoef i : ℚ) * x ^ (i + 1))
          + (Bn_1.getCoef d : ℚ) * x ^ (d + 1) := by
    rw [Finset.sum_range_succ, mul_add, Finset.mul_sum]
    congr 1
    · exact Finset.sum_congr rfl (fun i _ => by ring)
    · ring
  have t3 : ∑ i ∈ Finset.range (d + 1 + 1), (mp.getCoef i : ℚ) * x ^ i
      = (∑ i ∈ Finset.range (d + 1), (mp.getCoef i : ℚ) * x ^ i) + x ^ (d + 1) := by
    rw [Finset.sum_range_succ, hmonic]
    norm_num
  rw [t1, t2, t3]
  ring

/-- C1: on an unambiguous accepted step (the ambiguity test of step `n`
returned false, so in particular `xi` is not negative) the digit computed
by `_calc_cn` is `⌊xi⌋`, and the iterate computed by `_calc_Bn` is
`x*B_{n-1}(x) - c_n` reduced modulo the minimal polynomial: the leading
coefficient of `B_{n-1}` at position `deg - 1` times the minimal
polynomial is subtracted coefficientwise when that coefficient is
nonzero, the result lives in an array of length `deg` (degree at most
`deg - 1`), and its degree is recomputed from the coefficients. -/
theorem C1_step_recurrence (Bn_1 mp : IntPoly) (xi : ℚ) (deg : Nat)
    (hdeg1 : 1 ≤ deg)
    (hmp_len : mp.coefs.length = deg + 1)
    (hmp_deg : mp.deg.toNat = deg)
    (hmonic : mp.getCoef deg = 1)
    (hb_len : Bn_1.coefs.length = deg)
    (hxi : ¬ xi < 0) :
    calc_cn xi = ⌊xi⌋
    ∧ (∀ x : ℚ, (calc_Bn Bn_1 (calc_cn xi) mp).eval x
        = x * Bn_1.eval x - ((calc_cn xi : Int) : ℚ)
            - (Bn_1.getCoef (deg - 1) : ℚ) * mp.eval x)
    ∧ (calc_Bn Bn_1 (calc_cn xi) mp).coefs.length = deg
    ∧ (calc_Bn Bn_1 (calc_cn xi) mp).deg < (deg : Int)
    ∧ (calc_Bn Bn_1 (calc_cn xi) mp).deg
        = calc_deg (calc_Bn Bn_1 (calc_cn xi) mp).coefs
    ∧ (Bn_1.getCoef (deg - 1) ≠ 0 →
        ∀ j < deg, (calc_Bn Bn_1 (calc_cn xi) mp).getCoef j
          = (if j = 0 then -(calc_cn xi) else Bn_1.getCoef (j - 1))
              - Bn_1.getCoef (deg - 1) * mp.getCoef j) := by
  push_neg at hxi
  refine ⟨?_, ?_, ?_, ?_, rfl, ?_⟩
  · simp only [calc_cn, pyInt, if_pos hxi]
    exact ratFloor_eq xi
  · intro x
    exact calc_Bn_eval Bn_1 mp (calc_cn xi) deg hdeg1 hmp_len hmp_deg hmonic
      hb_len x
  · rw [calc_Bn_length, hmp_deg]
  · have h1 := calc_deg_lt_length (calc_Bn Bn_1 (calc_cn xi) mp).coefs
    have h2 := calc_Bn_length Bn_1 (calc_cn xi) mp
    show calc_deg (calc_Bn Bn_1 (calc_cn xi) mp).coefs < (deg : Int)
    omega
  · intro _ j hj
    exact calc_Bn_getCoef Bn_1 (calc_cn xi) mp deg hmp_deg j hj

/-- Witness for C1 at the concrete step `B_1 = x - 2`,
`min_poly = x^2 - 3x + 1`, `xi = 3/2`. -/
theorem C1_step_recurrence_witness :
    calc_cn (3/2 : ℚ) = ⌊(3/2 : ℚ)⌋
    ∧ (calc_Bn ⟨[-2, 1]⟩ (calc_cn (3/2 : ℚ)) ⟨[1, -3, 1]⟩).eval 2
        = 2 * (IntPoly.eval ⟨[-2, 1]⟩ 2) - ((calc_cn (3/2 : ℚ) : Int) : ℚ)
            - ((IntPoly.getCoef ⟨[-2, 1]⟩ (2 - 1) : Int) : ℚ)
              * (IntPoly.eval ⟨[1, -3, 1]⟩ 2)
    ∧ (calc_Bn ⟨[-2, 1]⟩ (calc_cn (3/2 : ℚ)) ⟨[1, -3, 1]⟩).coefs.length = 2 := by
  have h := C1_step_recurrence ⟨[-2, 1]⟩ ⟨[1, -3, 1]⟩ (3/2 : ℚ) 2
    (by norm_num) (by decide) (by decide) (by decide) (by decide)
    (by norm_num)
  exact ⟨h.1, h.2.1 2, h.2.2.1⟩

/-! ## `_base2_magn` and `_mpf_base2_magn` (claim C10) -/

theorem size_eq_log2_succ (n : Nat) (h : 0 < n) :
    Nat.size n = Nat.log 2 n + 1 := by
  apply le_antisymm
  · rw [Nat.size_le]
    exact Nat.lt_pow_succ_log_self (by norm_num) n
  · have : Nat.log 2 n < Nat.size n := by
      rw [Nat.lt_size]
      exact Nat.pow_log_le_self 2 h.ne'
    omega

theorem base2_magn_loop_nonneg (fuel : Nat) :
    ∀ (magn x : Int), 0 ≤ x → x.toNat < 2 ^ fuel →
      base2_magn_loop fuel magn x = some (magn + (Nat.size x.toNat : Int)) := by
  induction fuel with
  | zero =>
      intro magn x hx hbound
      have : x = 0 := by omega
      subst this
      simp [base2_magn_loop]
  | succ fuel ih =>
      intro magn x hx hbound
      by_cases hx0 : x = 0
      · subst hx0
        simp [base2_magn_loop]
      · obtain ⟨n, rfl⟩ := Int.eq_ofNat_of_zero_le hx
        have hfd : Int.fdiv (n : Int) 2 = ((n / 2 : Nat) : Int) := by
          exact_mod_cast (Int.ofNat_fdiv n 2).symm
        rw [base2_magn_loop, if_neg hx0, hfd]
        have hn : 0 < n := by
          rcases Nat.eq_zero_or_pos n with h | h
          · subst h; simp at hx0
          · exact h
        have hpow : 2 ^ (fuel + 1) = 2 ^ fuel * 2 := pow_succ 2 fuel
        have hb : ((n / 2 : Nat) : Int).toNat < 2 ^ fuel := by omega
        have := ih (magn + 1) ((n / 2 : Nat) : Int) (by positivity) hb
        rw [this]
        have ht : ((n / 2 : Nat) : Int).toNat = n / 2 := by omega
        have ht2 : ((n : Nat) : Int).toNat = n := by omega
        rw [ht, ht2, size_div2 n hn]
        push_cast
        ring

theorem base2_magn_loop_neg (fuel : Nat) :
    ∀ (magn x : Int), x < 0 → base2_magn_loop fuel magn x = none := by
  induction fuel with
  | zero =>
      intro magn x hx
      rw [base2_magn_loop, if_neg (by omega)]
  | succ fuel ih =>
      intro magn x hx
      rw [base2_magn_loop, if_neg (by omega)]
      exact ih (magn + 1) _ (Int.fdiv_neg' hx (by norm_num))

/-- C10: the right-shift loop of `_base2_magn` terminates on every
non-negative input and returns the binary digit count (`0` at zero,
`⌊log2 x⌋ + 1` for positive `x`); on negative inputs the loop never
terminates (no fuel suffices), so termination requires a non-negative
input; and the caller `_mpf_base2_magn` passes `int(xi) + 1`, which is
non-negative exactly when `xi > -2`. -/
theorem C10_base2_magn_termination :
    (∀ x : Int, 0 ≤ x → base2_magn_fuel (x.toNat + 1) x = some (base2_magn x))
    ∧ base2_magn 0 = 0
    ∧ (∀ x : Int, 0 < x → base2_magn x = (Nat.log 2 x.toNat : Int) + 1)
    ∧ (∀ x : Int, x < 0 → ∀ fuel, base2_magn_fuel fuel x = none)
    ∧ (∀ xi : ℚ, 0 ≤ pyInt xi + 1 ↔ -2 < xi)
    ∧ (∀ xi : ℚ, mpf_base2_magn xi = base2_magn (pyInt xi + 1)) := by
  refine ⟨?_, rfl, ?_, ?_, ?_, fun _ => rfl⟩
  · intro x hx
    have hbound : x.toNat < 2 ^ (x.toNat + 1) :=
      lt_of_lt_of_le (Nat.lt_two_pow x.toNat)
        (Nat.pow_le_pow_right (by norm_num) (by omega))
    rw [base2_magn_fuel, base2_magn_loop_nonneg (x.toNat + 1) 0 x hx hbound,
      base2_magn_eq_size]
    norm_num
  · intro x hx
    have h0 : 0 < x.toNat := by omega
    rw [base2_magn_eq_size, size_eq_log2_succ x.toNat h0]
    push_cast
    ring
  · intro x hx fuel
    exact base2_magn_loop_neg fuel 0 x hx
  · intro xi
    by_cases hxi : 0 ≤ xi
    · simp only [pyInt, if_pos hxi, ratFloor_eq]
      constructor
      · intro _
        linarith
      · intro _
        have : (0 : Int) ≤ ⌊xi⌋ := Int.floor_nonneg.mpr hxi
        omega
    · simp only [pyInt, if_neg hxi, ratFloor_eq]
      push_neg at hxi
      constructor
      · intro h
        have h1 : ⌊-xi⌋ ≤ 1 := by omega
        have h2 : ¬ (2 : Int) ≤ ⌊-xi⌋ := by omega
        rw [Int.le_floor] at h2
        push_neg at h2
        have : -xi < 2 := by exact_mod_cast h2
        linarith
      · intro h
        have h2 : -xi < 2 := by linarith
        have h3 : ¬ (2 : Int) ≤ ⌊-xi⌋ := by
          rw [Int.le_floor]
          push_neg
          exact_mod_cast h2
        omega

/-- Witness for C10 at `x = 5`, `x = -1` and `xi = -3/2`. -/
theorem C10_base2_magn_termination_witness :
    base2_magn_fuel 6 (5 : Int) = some (base2_magn 5)
    ∧ base2_magn (5 : Int) = (Nat.log 2 (5 : Int).toNat : Int) + 1
    ∧ base2_magn_fuel 3 (-1 : Int) = none
    ∧ (0 ≤ pyInt (-3/2 : ℚ) + 1 ↔ -2 < (-3/2 : ℚ)) := by
  refine ⟨C10_base2_magn_termination.1 5 (by norm_num),
    C10_base2_magn_termination.2.2.1 5 (by norm_num),
    C10_base2_magn_termination.2.2.2.1 (-1) (by norm_num) 3,
    C10_base2_magn_termination.2.2.2.2.1 (-3/2 : ℚ)⟩

theorem periodCandidates_mem (k : Nat) (hk : 1 ≤ k) (p : Nat) :
    p ∈ periodCandidates k ↔ p ∣ k := by
  rw [periodCandidates, List.mem_map]
  constructor
  · rintro ⟨q, hq, rfl⟩
    obtain ⟨hqr, hcond⟩ := List.mem_filter.mp hq
    by_cases hqlast : q = 1 + k / 2
    · rw [if_pos hqlast]
    · rw [if_neg hqlast]
      simp only [Bool.or_eq_true, decide_eq_true_eq] at hcond
      rcases hcond with h | h
      · exact Nat.dvd_of_mod_eq_zero h
      · exact absurd h hqlast
  · intro hdvd
    by_cases hpk : p = k
    · refine ⟨1 + k / 2, List.mem_filter.mpr ⟨?_, ?_⟩, ?_⟩
      · rw [List.mem_range'_1]
        omega
      · simp
      · rw [if_pos rfl, hpk]
    · have hp1 : 1 ≤ p := by
        rcases Nat.eq_zero_or_pos p with h | h
        · exfalso
          subst h
          have := Nat.eq_zero_of_zero_dvd hdvd
          omega
        · exact h
      have hplt : p < k := Nat.lt_of_le_of_ne (Nat.le_of_dvd (by omega) hdvd) hpk
      have hphalf : p ≤ k / 2 := by
        obtain ⟨c, rfl⟩ := hdvd
        have hc2 : 2 ≤ c := by
          rcases Nat.lt_or_ge c 2 with h | h
          · interval_cases c <;> omega
          · exact h
        have : p * 2 ≤ p * c := Nat.mul_le_mul_left p hc2
        omega
      refine ⟨p, List.mem_filter.mpr ⟨?_, ?_⟩, ?_⟩
      · rw [List.mem_range'_1]
        omega
      · simp only [Bool.or_eq_true, decide_eq_true_eq]
        exact Or.inl (Nat.mod_eq_zero_of_dvd hdvd)
      · rw [if_neg (by omega)]

theorem periodCandidates_sorted (k : Nat) (hk : 1 ≤ k) :
    (periodCandidates k).Sorted (· < ·) := by
  have hbase : (List.range' 1 (k / 2 + 1)).Sorted (· < ·) :=
    List.pairwise_lt_range' _ _
  have hfilter := hbase.filter
    (fun p => decide (k % p = 0) || decide (p = 1 + k / 2))
  rw [List.Sorted] at hfilter ⊢
  rw [periodCandidates, List.pairwise_map]
  apply hfilter.imp_of_mem
  intro a b ha hb hab
  have hamem := List.mem_filter.mp ha
  have hbmem := List.mem_filter.mp hb
  have ha2 : a < 1 + (k / 2 + 1) := (List.mem_range'_1.mp hamem.1).2
  have hb2 : b < 1 + (k / 2 + 1) := (List.mem_range'_1.mp hbmem.1).2
  by_cases hbl : b = 1 + k / 2
  · rw [if_neg (by omega), if_pos hbl]
    omega
  · rw [if_neg (by omega), if_neg hbl]
    exact hab

theorem find?_min_of_sorted {l : List Nat} {pred : Nat → Bool} {a : Nat}
    (hs : l.Sorted (· < ·)) (h : l.find? pred = some a) :
    pred a = true ∧ a ∈ l ∧ ∀ b ∈ l, pred b = true → a ≤ b := by
  induction l with
  | nil => simp at h
  | cons c rest ih =>
      by_cases hc : pred c = true
      · rw [List.find?_cons_of_pos _ hc] at h
        obtain rfl : c = a := by simpa using h
        refine ⟨hc, List.mem_cons_self _ _, ?_⟩
        intro b hb _
        rcases List.mem_cons.mp hb with rfl | hb
        · exact le_refl _
        · exact le_of_lt ((List.sorted_cons.mp hs).1 b hb)
      · rw [List.find?_cons_of_neg _ (by simpa using hc)] at h
        obtain ⟨hpa, hmem, hmin⟩ := ih (List.sorted_cons.mp hs).2 h
        refine ⟨hpa, List.mem_cons_of_mem _ hmem, ?_⟩
        intro b hb hpb
        rcases List.mem_cons.mp hb with rfl | hb
        · exact absurd hpb hc
        · exact hmin b hb hpb

theorem find?_range_least {n : Nat} {pred : Nat → Bool} {m : Nat}
    (h : (List.range n).find? pred = some m) :
    pred m = true ∧ m < n ∧ ∀ j < m, ¬ pred j = true := by
  have hs : (List.range n).Sorted (· < ·) := by
    rw [List.Sorted]
    exact List.pairwise_lt_range n
  obtain ⟨hp, hmem, hmin⟩ := find?_min_of_sorted hs h
  refine ⟨hp, List.mem_range.mp hmem, ?_⟩
  intro j hj hpj
  have hjn : j < n := lt_trans hj (List.mem_range.mp hmem)
  have := hmin j (List.mem_range.mpr hjn) hpj
  omega

/-- C2, detector part: when `_calc_minimal_period` is called with the
stored iterate `Bk = B_k` and returns `(m, p)`, then `p` is a divisor of
`k` (the fallback candidate `k` itself divides `k`), it is the smallest
divisor with `B_k == B_{k+p}`, and `m` is the first index of the stored
orbit (0-indexed: entry `j` of the orbit is register index `j + 1`) at
which the orbit matches its shift by `p`. -/
theorem calc_minimal_period_spec (k : Nat) (hk : 1 ≤ k) (Bk : IntPoly)
    (B : Nat → IntPoly) (hBk : Bk = B k) (m p : Nat)
    (h : calc_minimal_period k Bk B = some (m, p)) :
    p ∣ k
    ∧ (B k).c_eq (B (k + p)) = true
    ∧ (∀ q, q ∣ k → q < p → ¬ (B k).c_eq (B (k + q)) = true)
    ∧ (B (m + 1)).c_eq (B (m + p + 1)) = true
    ∧ (∀ j < m, ¬ (B (j + 1)).c_eq (B (j + p + 1)) = true)
    ∧ m < k := by
  rw [calc_minimal_period] at h
  rcases hfind : (periodCandidates k).find? (fun q => Bk.c_eq (B (k + q))) with
    _ | p'
  · rw [hfind] at h
    simp at h
  · rw [hfind] at h
    simp only [Option.some.injEq, Prod.mk.injEq] at h
    obtain ⟨hm, hp'⟩ := h
    rw [hp'] at hfind hm
    obtain ⟨hpq, hqmem, hqmin⟩ :=
      find?_min_of_sorted (periodCandidates_sorted k hk) hfind
    have hdvd : p ∣ k := (periodCandidates_mem k hk p).mp hqmem
    subst hBk
    have hmin : ∀ q, q ∣ k → q < p → ¬ (B k).c_eq (B (k + q)) = true := by
      intro q hq hqp hmatch
      have := hqmin q ((periodCandidates_mem k hk q).mpr hq) hmatch
      omega
    have hpred : (fun j => (B (j + 1)).c_eq (B (j + p + 1))) (k - 1) = true := by
      have h1 : k - 1 + 1 = k := by omega
      have h2 : k - 1 + p + 1 = k + p := by omega
      simp only [h1, h2]
      exact hpq
    rw [findPreperiod] at hm
    rcases hfp : (List.range k).find?
        (fun j => (B (j + 1)).c_eq (B (j + p + 1))) with _ | m'
    · exfalso
      rw [List.find?_eq_none] at hfp
      exact hfp (k - 1) (List.mem_range.mpr (by omega)) hpred
    · rw [hfp] at hm
      obtain rfl : m' = m := by simpa using hm
      obtain ⟨hpm, hmk, hmleast⟩ := find?_range_least hfp
      exact ⟨hdvd, hpq, hmin, by simpa using hpm,
        fun j hj => by simpa using hmleast j hj, hmk⟩

theorem cleanupStore_concat {α : Type} (bs : List (Blk α)) (s principal : Nat)
    (hc : contiguousFromB s bs = true) :
    storeConcat (cleanupStore principal bs)
      = (storeConcat bs).take (principal + 1 - s) := by
  induction bs generalizing s with
  | nil => simp [storeConcat, cleanupStore]
  | cons b rest ih =>
      rw [contiguousFromB, Bool.and_eq_true, beq_iff_eq] at hc
      obtain ⟨hstart, hrest⟩ := hc
      have ihr := ih (s + b.seg.length) hrest
      rw [cleanupStore, List.filterMap_cons]
      by_cases h1 : (principal : Int) < (b.startn : Int)
      · rw [if_pos h1]
        show storeConcat (cleanupStore principal rest) = _
        rw [ihr]
        have hz1 : principal + 1 - (s + b.seg.length) = 0 := by omega
        have hz2 : principal + 1 - s = 0 := by omega
        rw [hz1, hz2]
        simp
      · rw [if_neg h1]
        by_cases h2 : (principal : Int) < (b.startn : Int) + (b.seg.length : Int) - 1
        · rw [if_pos h2]
          show b.seg.take (principal - b.startn + 1)
              ++ storeConcat (cleanupStore principal rest)
            = (b.seg ++ storeConcat rest).take (principal + 1 - s)
          rw [ihr]
          have hz1 : principal + 1 - (s + b.seg.length) = 0 := by omega
          rw [hz1]
          rw [List.take_append_eq_append_take]
          have he1 : principal - b.startn + 1 = principal + 1 - s := by omega
          have he2 : principal + 1 - s - b.seg.length = 0 := by omega
          rw [he1, he2]
        · rw [if_neg h2]
          show b.seg ++ storeConcat (cleanupStore principal rest)
            = (b.seg ++ storeConcat rest).take (principal + 1 - s)
          rw [ihr, List.take_append_eq_append_take]
          have hlen2 : b.seg.length ≤ principal + 1 - s := by omega
          have he2 : principal + 1 - s - b.seg.length
              = principal + 1 - (s + b.seg.length) := by omega
          rw [List.take_of_length_le hlen2, he2]

theorem storeConcat_length_cleanup {α : Type} (bs : List (Blk α))
    (principal : Nat) (hc : contiguousFromB 1 bs = true)
    (hlen : principal ≤ (storeConcat bs).length) :
    (storeConcat (cleanupStore principal bs)).length = principal := by
  rw [cleanupStore_concat bs 1 principal hc, List.length_take]
  omega

/-- C3: on periodicity `(m, p)`, `_cleanup_register` truncates the stored
polynomial orbit to exactly `m + p` entries and the stored digit orbit to
exactly `m + p + 1` entries (the prefix of the previously stored data),
and `_set_periodic_info` records `(m, p)` and the periodic status sentinel
`(-1, -1, -1)`. -/
theorem C3_principal_truncation (m p : Nat) (r : Regs)
    (hpoly : contiguousFromB 1 r.polyStore = true)
    (hcoef : contiguousFromB 1 r.coefStore = true)
    (hplen : m + p ≤ (storeConcat r.polyStore).length)
    (hclen : m + p + 1 ≤ (storeConcat r.coefStore).length) :
    storeConcat (cleanup_register m p r).polyStore
        = (storeConcat r.polyStore).take (m + p)
    ∧ (storeConcat (cleanup_register m p r).polyStore).length = m + p
    ∧ storeConcat (cleanup_register m p r).coefStore
        = (storeConcat r.coefStore).take (m + p + 1)
    ∧ (storeConcat (cleanup_register m p r).coefStore).length = m + p + 1
    ∧ (cleanup_register m p r).status = (-1, -1, -1)
    ∧ (cleanup_register m p r).periodic = ((m : Int), (p : Int)) := by
  have e1 : p + m = m + p := by omega
  have e2 : p + (m + 1) = m + p + 1 := by omega
  refine ⟨?_, ?_, ?_, ?_, rfl, rfl⟩
  · show storeConcat (cleanupStore (p + m) r.polyStore) = _
    rw [cleanupStore_concat _ 1 _ hpoly, e1,
      show m + p + 1 - 1 = m + p by omega]
  · show (storeConcat (cleanupStore (p + m) r.polyStore)).length = _
    rw [e1]
    exact storeConcat_length_cleanup _ _ hpoly hplen
  · show storeConcat (cleanupStore (p + (m + 1)) r.coefStore) = _
    rw [cleanupStore_concat _ 1 _ hcoef, e2,
      show m + p + 1 + 1 - 1 = m + p + 1 by omega]
  · show (storeConcat (cleanupStore (p + (m + 1)) r.coefStore)).length = _
    rw [e2]
    exact storeConcat_length_cleanup _ _ hcoef hclen

/-- Witness for C3: a store of three blocks `[1..2], [3..4], [5..6]`
truncated with `(m, p) = (1, 2)`. -/
theorem C3_principal_truncation_witness :
    let r : Regs :=
      { polyStore :=
          [⟨1, [⟨[1, 0]⟩, ⟨[2, 0]⟩]⟩, ⟨3, [⟨[3, 0]⟩, ⟨[4, 0]⟩]⟩,
            ⟨5, [⟨[5, 0]⟩, ⟨[6, 0]⟩]⟩]
        coefStore := [⟨1, [1, 2, 3, 4]⟩, ⟨5, [5, 6]⟩]
        status := (6, -1, -1)
        periodic := (-1, -1) }
    storeConcat (cleanup_register 1 2 r).polyStore
        = (storeConcat r.polyStore).take 3
      ∧ (storeConcat (cleanup_register 1 2 r).coefStore).length = 4
      ∧ (cleanup_register 1 2 r).status = (-1, -1, -1)
      ∧ (cleanup_register 1 2 r).periodic = (1, 2) := by
  intro r
  have h := C3_principal_truncation 1 2 r (by decide) (by decide)
    (by decide) (by decide)
  exact ⟨h.1, h.2.2.2.1, h.2.2.2.2.1, h.2.2.2.2.2⟩

/-! ## Helper lemmas about flushing -/

theorem storeConcat_append {α : Type} (bs : List (Blk α)) (b : Blk α) :
    storeConcat (bs ++ [b]) = storeConcat bs ++ b.seg := by
  induction bs with
  | nil => simp [storeConcat]
  | cons c rest ih =>
      show c.seg ++ storeConcat (rest ++ [b]) = (c.seg ++ storeConcat rest) ++ b.seg
      rw [ih, List.append_assoc]

theorem storeConcat_condFlushPoly (r : Regs) (b : Blk IntPoly) :
    storeConcat (if 0 < b.seg.length then flushPoly r b else r).polyStore
      = storeConcat r.polyStore ++ b.seg := by
  by_cases h : 0 < b.seg.length
  · rw [if_pos h]
    exact storeConcat_append r.polyStore b
  · rw [if_neg h]
    have : b.seg = [] := by
      cases hs : b.seg with
      | nil => rfl
      | cons x xs => rw [hs] at h; simp at h
    rw [this]
    simp

theorem storeConcat_condFlushCoef (r : Regs) (b : Blk Int) :
    storeConcat (if 0 < b.seg.length then flushCoef r b else r).coefStore
      = storeConcat r.coefStore ++ b.seg := by
  by_cases h : 0 < b.seg.length
  · rw [if_pos h]
    exact storeConcat_append r.coefStore b
  · rw [if_neg h]
    have : b.seg = [] := by
      cases hs : b.seg with
      | nil => rfl
      | cons x xs => rw [hs] at h; simp at h
    rw [this]
    simp

theorem flushBoth_coefStore (r : Regs) (cb : Blk Int) (pb : Blk IntPoly) :
    storeConcat (flushBoth r cb pb).coefStore
      = storeConcat r.coefStore ++ cb.seg := by
  rw [flushBoth]
  by_cases hp : 0 < pb.seg.length
  · rw [if_pos hp]
    show storeConcat (if 0 < cb.seg.length then flushCoef r cb else r).coefStore = _
    exact storeConcat_condFlushCoef r cb
  · rw [if_neg hp]
    exact storeConcat_condFlushCoef r cb

theorem flushBoth_polyStore (r : Regs) (cb : Blk Int) (pb : Blk IntPoly) :
    storeConcat (flushBoth r cb pb).polyStore
      = storeConcat r.polyStore ++ pb.seg := by
  rw [flushBoth]
  have hps : ∀ r' : Regs, (if 0 < cb.seg.length then flushCoef r' cb else r').polyStore
      = r'.polyStore := by
    intro r'
    by_cases h : 0 < cb.seg.length <;> simp [h, flushCoef]
  by_cases hp : 0 < pb.seg.length
  · rw [if_pos hp]
    show storeConcat (flushPoly _ pb).polyStore = _
    rw [flushPoly]
    show storeConcat ((if 0 < cb.seg.length then flushCoef r cb else r).polyStore ++ [pb]) = _
    rw [storeConcat_append, hps]
  · rw [if_neg hp]
    rw [hps]
    have : pb.seg = [] := by
      cases hs : pb.seg with
      | nil => rfl
      | cons x xs => rw [hs] at hp; simp at hp
    rw [this]
    simp

theorem flushBoth_status (r : Regs) (cb : Blk Int) (pb : Blk IntPoly) :
    (flushBoth r cb pb).status = r.status := by
  rw [flushBoth]
  by_cases hc : 0 < cb.seg.length <;> by_cases hp : 0 < pb.seg.length <;>
    simp [hc, hp, flushCoef, flushPoly]

theorem flushBoth_periodic (r : Regs) (cb : Blk Int) (pb : Blk IntPoly) :
    (flushBoth r cb pb).periodic = r.periodic := by
  rw [flushBoth]
  by_cases hc : 0 < cb.seg.length <;> by_cases hp : 0 < pb.seg.length <;>
    simp [hc, hp, flushCoef, flushPoly]

theorem set_periodic_info_polyStore (m p : Nat) (r : Regs) :
    (set_periodic_info m p r).polyStore = r.polyStore := rfl

theorem set_periodic_info_coefStore (m p : Nat) (r : Regs) :
    (set_periodic_info m p r).coefStore = r.coefStore := rfl

theorem set_periodic_info_periodic (m p : Nat) (r : Regs) :
    (set_periodic_info m p r).periodic = ((m : Int), (p : Int)) := rfl

theorem set_periodic_info_status (m p : Nat) (r : Regs) :
    (set_periodic_info m p r).status = (-1, -1, -1) := rfl

theorem flushCoef_polyStore (r : Regs) (b : Blk Int) :
    (flushCoef r b).polyStore = r.polyStore := rfl

theorem flushCoef_coefStore (r : Regs) (b : Blk Int) :
    (flushCoef r b).coefStore = r.coefStore ++ [b] := rfl

theorem flushPoly_polyStore (r : Regs) (b : Blk IntPoly) :
    (flushPoly r b).polyStore = r.polyStore ++ [b] := rfl

theorem flushPoly_coefStore (r : Regs) (b : Blk IntPoly) :
    (flushPoly r b).coefStore = r.coefStore := rfl

/-! ## Claim C5: the immediate termination checks -/

/-- C5 (amended): immediately after accepting `B_n` and before the period
detector, if `n ≥ 2` and `B_n` equals the degree-1 identity iterate
`x - c_1` (with `c_1 = int(beta0)`), the orbit is recorded as periodic
with pre-period `0` and period `n - 1`; otherwise if `B_n` equals the
constant-1 polynomial it is recorded with pre-period `0` and period `n`;
either check sets the records directly via `_set_periodic_info`, without
truncation and without invoking the period detector. -/
theorem C5_immediate_checks (P : Params) (st : LoopState) (xi : ℚ)
    (hcn : ¬ P.beta0 < ((calc_cn xi : Int) : ℚ)) :
    (2 ≤ st.n → (calc_Bn st.Bn_1 (calc_cn xi) P.min_poly).c_eq P.B1 = true →
      ∃ r, acceptPhase P st xi = .done .shortcutB1 r
        ∧ r.periodic = (0, (st.n : Int) - 1)
        ∧ r.status = (-1, -1, -1)
        ∧ storeConcat r.polyStore
            = storeConcat st.regs.polyStore ++ st.polyBlk.seg
        ∧ storeConcat r.coefStore
            = storeConcat st.regs.coefStore ++ (st.coefBlk.seg ++ [calc_cn xi]))
    ∧ (¬ (2 ≤ st.n ∧ (calc_Bn st.Bn_1 (calc_cn xi) P.min_poly).c_eq P.B1 = true) →
       (calc_Bn st.Bn_1 (calc_cn xi) P.min_poly).c_eq P.B0 = true →
      ∃ r, acceptPhase P st xi = .done .shortcutB0 r
        ∧ r.periodic = (0, (st.n : Int))
        ∧ r.status = (-1, -1, -1)
        ∧ storeConcat r.polyStore
            = storeConcat st.regs.polyStore ++ st.polyBlk.seg
        ∧ storeConcat r.coefStore
            = storeConcat st.regs.coefStore ++ (st.coefBlk.seg ++ [calc_cn xi])) := by
  constructor
  · intro hn2 hB1
    have heq : acceptPhase P st xi = .done .shortcutB1
        (set_periodic_info 0 (st.n - 1)
          (flushCoef
            (if 0 < st.polyBlk.seg.length then flushPoly st.regs st.polyBlk
              else st.regs)
            ⟨st.coefBlk.startn, st.coefBlk.seg ++ [calc_cn xi]⟩)) := by
      rw [acceptPhase]
      rw [if_neg hcn, if_pos ⟨hn2, hB1⟩]
    refine ⟨_, heq, ?_, rfl, ?_, ?_⟩
    · rw [set_periodic_info_periodic]
      have h1 : ((st.n - 1 : Nat) : Int) = (st.n : Int) - 1 := by omega
      rw [h1]
      norm_num
    · rw [set_periodic_info_polyStore, flushCoef_polyStore]
      exact storeConcat_condFlushPoly st.regs st.polyBlk
    · rw [set_periodic_info_coefStore, flushCoef_coefStore, storeConcat_append]
      congr 1
      by_cases h : 0 < st.polyBlk.seg.length <;> simp [h, flushPoly]
  · intro hnotB1 hB0
    have heq : acceptPhase P st xi = .done .shortcutB0
        (set_periodic_info 0 st.n
          (flushCoef
            (if 0 < st.polyBlk.seg.length then flushPoly st.regs st.polyBlk
              else st.regs)
            ⟨st.coefBlk.startn, st.coefBlk.seg ++ [calc_cn xi]⟩)) := by
      rw [acceptPhase]
      rw [if_neg hcn, if_neg hnotB1, if_pos hB0]
    refine ⟨_, heq, ?_, rfl, ?_, ?_⟩
    · rw [set_periodic_info_periodic]
      norm_num
    · rw [set_periodic_info_polyStore, flushCoef_polyStore]
      exact storeConcat_condFlushPoly st.regs st.polyBlk
    · rw [set_periodic_info_coefStore, flushCoef_coefStore, storeConcat_append]
      congr 1
      by_cases h : 0 < st.polyBlk.seg.length <;> simp [h, flushPoly]

/-- C5 counterexample: a concrete orbit (minimal polynomial
`x^3 - x^2 - x`, digits `1, 0, 1`) in which `B_3` equals the degree-1
identity iterate; the engine records `PeriodicityRecord (0, 2)` —
pre-period `0` and period `n - 1 = 2` — not "period 1 starting at
`n - 1 = 2`", i.e. not `(2, 1)`, as the claim states. -/
theorem C5_immediate_checks_counterexample :
    (singleOrbit
        { min_poly := ⟨[0, -1, -1, 1]⟩
          beta0 := 19 / 10
          max_blk_len := 10
          max_poly_orbit_len := 20
          maxPrec := 100
          amb := fun _ _ => false
          xiAt := fun b _ =>
            if b.coefs = [1, 0, 0] then 3/2
            else if b.coefs = [0, -1, 1] then 3/2 else 1/2 }
        false
        { polyStore := [], coefStore := [], status := (0, -1, -1),
          periodic := (-1, -1) }
      = .finished .shortcutB1
          { polyStore := [⟨1, [⟨[-1, 1, 0]⟩, ⟨[0, -1, 1]⟩]⟩]
            coefStore := [⟨1, [1, 0, 1]⟩]
            status := (-1, -1, -1)
            periodic := (0, 2) })
    ∧ ((0 : Int), (2 : Int)) ≠ (((3 : Int) - 1), (1 : Int)) := by
  constructor
  · decide
  · decide

/-- Witness for the amended C5 at a concrete state: `n = 2`,
`B_1 = x - 2`, `xi = 3/2` over `x^2 - 3x + 1`. -/
theorem C5_immediate_checks_witness :
    ∃ r,
      acceptPhase
        { min_poly := ⟨[1, -3, 1]⟩
          beta0 := 2618 / 1000
          max_blk_len := 10
          max_poly_orbit_len := 20
          maxPrec := 100
          amb := fun _ _ => false
          xiAt := fun _ _ => 0 }
        { n := 2
          Bn_1 := ⟨[-2, 1]⟩
          offset := 10
          coefBlk := ⟨1, [2]⟩
          polyBlk := ⟨1, [⟨[-2, 1]⟩]⟩
          cursor := 1
          regs := { polyStore := [], coefStore := [], status := (0, -1, -1),
                    periodic := (-1, -1) } }
        (3/2)
      = .done .shortcutB1 r
      ∧ r.periodic = (0, (2 : Int) - 1)
      ∧ r.status = (-1, -1, -1) := by
  obtain ⟨h1, h2⟩ := C5_immediate_checks
    { min_poly := ⟨[1, -3, 1]⟩
      beta0 := 2618 / 1000
      max_blk_len := 10
      max_poly_orbit_len := 20
      maxPrec := 100
      amb := fun _ _ => false
      xiAt := fun _ _ => 0 }
    { n := 2
      Bn_1 := ⟨[-2, 1]⟩
      offset := 10
      coefBlk := ⟨1, [2]⟩
      polyBlk := ⟨1, [⟨[-2, 1]⟩]⟩
      cursor := 1
      regs := { polyStore := [], coefStore := [], status := (0, -1, -1),
                periodic := (-1, -1) } }
    (3/2) (by decide)
  obtain ⟨r, hr, hper, hst, _, _⟩ := h1 (by norm_num) (by decide)
  exact ⟨r, hr, hper, hst⟩

/-! ## Claim C6: idempotence of the startup guard -/

/-- C6 (amended): invoking the orchestrator on an orbit whose overflow
index is set, or whose periodicity record is set, is a no-op returning
immediately with the registers untouched.  (An orbit with only a
precision-failure index recorded is re-attempted, not skipped: see the
counterexample.) -/
theorem C6_idempotent_guard (P : Params) (stopCk : Bool) (r : Regs) :
    (r.status.2.2 ≠ -1 → singleOrbit P stopCk r = .noop r)
    ∧ (r.status.2.2 = -1 → r.periodic.1 ≠ -1 →
        singleOrbit P stopCk r = .noop r) := by
  constructor
  · intro hovf
    rw [singleOrbit, startOrbit]
    rw [if_pos hovf]
  · intro hovf hper
    rw [singleOrbit, startOrbit]
    rw [if_neg (by simpa using hovf), if_pos hper]

/-- C6 counterexample: an orbit whose status records a precision failure
at index 6 (`status = (5, 6, -1)`, overflow unset, periodicity unset) is
not a no-op: the orchestrator proceeds, and — the maximum orbit length 5
being already reached — rewrites the status to `(5, -1, -1)`, erasing the
precision-failure marker. -/
theorem C6_idempotent_guard_counterexample :
    (singleOrbit
        { min_poly := ⟨[1, -3, 1]⟩
          beta0 := 2618 / 1000
          max_blk_len := 10
          max_poly_orbit_len := 5
          maxPrec := 100
          amb := fun _ _ => false
          xiAt := fun _ _ => 0 }
        false
        { polyStore :=
            [⟨1, [⟨[-2, 1]⟩, ⟨[-3, 1]⟩, ⟨[-1, 0]⟩, ⟨[0, -1]⟩, ⟨[1, -3]⟩]⟩]
          coefStore := [⟨1, [2, 2, 0, 0, 0]⟩]
          status := (5, 6, -1)
          periodic := (-1, -1) }
      = .finished .lenExhausted
          { polyStore :=
              [⟨1, [⟨[-2, 1]⟩, ⟨[-3, 1]⟩, ⟨[-1, 0]⟩, ⟨[0, -1]⟩, ⟨[1, -3]⟩]⟩]
            coefStore := [⟨1, [2, 2, 0, 0, 0]⟩]
            status := (5, -1, -1)
            periodic := (-1, -1) })
    ∧ ((5 : Int), (6 : Int), (-1 : Int)) ≠ ((5 : Int), (-1 : Int), (-1 : Int)) := by
  constructor
  · decide
  · decide

/-- Witness for the amended C6: a periodic orbit and an overflowed orbit
are both no-ops. -/
theorem C6_idempotent_guard_witness :
    (singleOrbit
        { min_poly := ⟨[1, -3, 1]⟩
          beta0 := 2618 / 1000
          max_blk_len := 10
          max_poly_orbit_len := 5
          maxPrec := 100
          amb := fun _ _ => false
          xiAt := fun _ _ => 0 }
        false
        { polyStore := [], coefStore := [], status := (3, -1, 4),
          periodic := (-1, -1) }
      = .noop
          { polyStore := [], coefStore := [], status := (3, -1, 4),
            periodic := (-1, -1) })
    ∧ (singleOrbit
        { min_poly := ⟨[1, -3, 1]⟩
          beta0 := 2618 / 1000
          max_blk_len := 10
          max_poly_orbit_len := 5
          maxPrec := 100
          amb := fun _ _ => false
          xiAt := fun _ _ => 0 }
        false
        { polyStore := [⟨1, [⟨[-2, 1]⟩]⟩], coefStore := [⟨1, [2, 1]⟩],
          status := (-1, -1, -1), periodic := (0, 1) }
      = .noop
          { polyStore := [⟨1, [⟨[-2, 1]⟩]⟩], coefStore := [⟨1, [2, 1]⟩],
            status := (-1, -1, -1), periodic := (0, 1) }) := by
  constructor
  · exact (C6_idempotent_guard _ false _).1 (by decide)
  · exact (C6_idempotent_guard _ false _).2 (by decide) (by decide)

theorem setStatus_periodic (r : Regs) (v : Int × Int × Int) :
    (setStatus r v).periodic = r.periodic := rfl

theorem setStatus_status (r : Regs) (v : Int × Int × Int) :
    (setStatus r v).status = v := rfl

theorem setStatus_polyStore (r : Regs) (v : Int × Int × Int) :
    (setStatus r v).polyStore = r.polyStore := rfl

theorem setStatus_coefStore (r : Regs) (v : Int × Int × Int) :
    (setStatus r v).coefStore = r.coefStore := rfl

theorem storeConcat_cons {α : Type} (b : Blk α) (bs : List (Blk α)) :
    storeConcat (b :: bs) = b.seg ++ storeConcat bs := rfl

theorem cleanup_register_periodic (m p : Nat) (r : Regs) :
    (cleanup_register m p r).periodic = ((m : Int), (p : Int)) := rfl

theorem cleanup_register_status (m p : Nat) (r : Regs) :
    (cleanup_register m p r).status = (-1, -1, -1) := rfl

theorem contiguousFromB_append {α : Type} (bs : List (Blk α)) (s : Nat)
    (b : Blk α) (hc : contiguousFromB s bs = true)
    (hb : b.startn = s + (storeConcat bs).length) :
    contiguousFromB s (bs ++ [b]) = true := by
  induction bs generalizing s with
  | nil =>
      simp only [storeConcat, List.length_nil, Nat.add_zero] at hb
      simp [contiguousFromB, hb]
  | cons c rest ih =>
      rw [contiguousFromB, Bool.and_eq_true, beq_iff_eq] at hc
      obtain ⟨hcs, hrest⟩ := hc
      rw [List.cons_append, contiguousFromB, Bool.and_eq_true, beq_iff_eq]
      refine ⟨hcs, ih (s + c.seg.length) hrest ?_⟩
      rw [hb, storeConcat_cons, List.length_append]
      omega

/-! ## Claim C4: the precision-ceiling fallback policy -/

/-- C4: once the ambiguity test still fails at the precision ceiling, the
fallback policy (lines 752-816) resolves the step: if `xi < 0` the orbit
aborts with status `(n-1, n, -1)`; otherwise the tentative digit
`c_n = round(xi)` is formed and `B_n` computed by the recurrence — if
`B_n` is identically zero the orbit terminates as a simple Parry number,
the digit orbit receiving `c_n` and the trailing digit `0` so that it is
exactly one entry longer than the polynomial orbit, with periodicity
`(n-1, 1)` recorded; if `B_n` is not identically zero the orbit aborts
with status `(n-1, n, -1)`. -/
theorem C4_fallback_policy (P : Params) (st : LoopState) (xi : ℚ)
    (hcc : contiguousFromB 1 st.regs.coefStore = true)
    (hpc : contiguousFromB 1 st.regs.polyStore = true)
    (hcs : st.coefBlk.startn = 1 + (storeConcat st.regs.coefStore).length)
    (hps : st.polyBlk.startn = 1 + (storeConcat st.regs.polyStore).length)
    (hclen : (storeConcat st.regs.coefStore).length + st.coefBlk.seg.length
        = st.n - 1)
    (hplen : (storeConcat st.regs.polyStore).length + st.polyBlk.seg.length
        = st.n - 1)
    (hn : 1 ≤ st.n) :
    (xi < 0 →
      ∃ r, fallbackPhase P st xi = .done .precFail r
        ∧ r.status = ((st.n : Int) - 1, (st.n : Int), -1)
        ∧ r.periodic = st.regs.periodic)
    ∧ (¬ xi < 0 →
       (∀ j < P.deg,
          (calc_Bn st.Bn_1 (mp_round xi) P.min_poly).coefs.getD j 0 = 0) →
      ∃ r, fallbackPhase P st xi = .done .simpleParry r
        ∧ storeConcat r.coefStore
            = storeConcat st.regs.coefStore ++ st.coefBlk.seg
                ++ [mp_round xi, 0]
        ∧ storeConcat r.polyStore
            = storeConcat st.regs.polyStore ++ st.polyBlk.seg
                ++ [calc_Bn st.Bn_1 (mp_round xi) P.min_poly]
        ∧ (storeConcat r.coefStore).length
            = (storeConcat r.polyStore).length + 1
        ∧ (storeConcat r.coefStore).getLast? = some 0
        ∧ r.periodic = ((st.n : Int) - 1, 1)
        ∧ r.status = (-1, -1, -1))
    ∧ (¬ xi < 0 →
       (∃ j < P.deg,
          (calc_Bn st.Bn_1 (mp_round xi) P.min_poly).coefs.getD j 0 ≠ 0) →
      ∃ r, fallbackPhase P st xi = .done .precFail r
        ∧ r.status = ((st.n : Int) - 1, (st.n : Int), -1)
        ∧ r.periodic = st.regs.periodic) := by
  refine ⟨?_, ?_, ?_⟩
  · intro hneg
    have heq : fallbackPhase P st xi = .done .precFail
        (setStatus (flushBoth st.regs st.coefBlk st.polyBlk)
          ((st.n : Int) - 1, (st.n : Int), -1)) := by
      rw [fallbackPhase, if_pos hneg]
    refine ⟨_, heq, rfl, ?_⟩
    rw [setStatus_periodic]
    exact flushBoth_periodic _ _ _
  · intro hneg hzero
    have hany : ¬ ((List.range P.deg).any
        (fun j => !((calc_Bn st.Bn_1 (mp_round xi) P.min_poly).coefs.getD j 0
          == 0)) = true) := by
      rw [List.any_eq_true]
      rintro ⟨j, hj, hnz⟩
      rw [List.mem_range] at hj
      rw [Bool.not_eq_true', beq_eq_false_iff_ne] at hnz
      exact hnz (hzero j hj)
    set cn := mp_round xi with hcn
    set Bn := calc_Bn st.Bn_1 cn P.min_poly with hBn
    set r0 : Regs := if cn = 0 then
        setStatus st.regs ((st.n : Int) - 1, (st.n : Int), -1)
      else st.regs with hr0
    have hr0c : r0.coefStore = st.regs.coefStore := by
      rw [hr0]
      by_cases h : cn = 0 <;> simp [h, setStatus]
    have hr0p : r0.polyStore = st.regs.polyStore := by
      rw [hr0]
      by_cases h : cn = 0 <;> simp [h, setStatus]
    -- In both flush branches the digit register receives the same logical
    -- content; only the block structure differs.
    have key : ∀ rmid : Regs,
        storeConcat rmid.coefStore
            = storeConcat st.regs.coefStore ++ (st.coefBlk.seg ++ [cn, 0]) →
        contiguousFromB 1 rmid.coefStore = true →
        rmid.polyStore = st.regs.polyStore →
        rmid.periodic = st.regs.periodic →
        ∃ r, StepOut.done Reason.simpleParry
              (cleanup_register (st.n - 1) 1
                (flushPoly rmid ⟨st.polyBlk.startn, st.polyBlk.seg ++ [Bn]⟩))
            = StepOut.done .simpleParry r
          ∧ storeConcat r.coefStore
              = storeConcat st.regs.coefStore ++ st.coefBlk.seg ++ [cn, 0]
          ∧ storeConcat r.polyStore
              = storeConcat st.regs.polyStore ++ st.polyBlk.seg ++ [Bn]
          ∧ (storeConcat r.coefStore).length
              = (storeConcat r.polyStore).length + 1
          ∧ (storeConcat r.coefStore).getLast? = some 0
          ∧ r.periodic = ((st.n : Int) - 1, 1)
          ∧ r.status = (-1, -1, -1) := by
      intro rmid hmc hmcont hmp hmper
      have hpolycontig : contiguousFromB 1
          (flushPoly rmid ⟨st.polyBlk.startn, st.polyBlk.seg ++ [Bn]⟩).polyStore
            = true := by
        rw [flushPoly_polyStore, hmp]
        exact contiguousFromB_append _ 1 _ hpc (by rw [hps])
      have hcoefcontig : contiguousFromB 1
          (flushPoly rmid ⟨st.polyBlk.startn, st.polyBlk.seg ++ [Bn]⟩).coefStore
            = true := by
        rw [flushPoly_coefStore]
        exact hmcont
      have hcoefconcat : storeConcat
          (flushPoly rmid ⟨st.polyBlk.startn, st.polyBlk.seg ++ [Bn]⟩).coefStore
            = storeConcat st.regs.coefStore ++ (st.coefBlk.seg ++ [cn, 0]) := by
        rw [flushPoly_coefStore]
        exact hmc
      have hpolyconcat : storeConcat
          (flushPoly rmid ⟨st.polyBlk.startn, st.polyBlk.seg ++ [Bn]⟩).polyStore
            = storeConcat st.regs.polyStore ++ (st.polyBlk.seg ++ [Bn]) := by
        rw [flushPoly_polyStore, hmp]
        exact storeConcat_append _ _
      have hclen2 : (storeConcat
          (flushPoly rmid ⟨st.polyBlk.startn, st.polyBlk.seg ++ [Bn]⟩).coefStore).length
            = st.n + 1 := by
        rw [hcoefconcat]
        simp only [List.length_append, List.length_cons, List.length_nil]
        omega
      have hplen2 : (storeConcat
          (flushPoly rmid ⟨st.polyBlk.startn, st.polyBlk.seg ++ [Bn]⟩).polyStore).length
            = st.n := by
        rw [hpolyconcat]
        simp only [List.length_append, List.length_cons, List.length_nil]
        omega
      have hcoefclean : storeConcat
          (cleanup_register (st.n - 1) 1
            (flushPoly rmid ⟨st.polyBlk.startn, st.polyBlk.seg ++ [Bn]⟩)).coefStore
          = storeConcat st.regs.coefStore ++ (st.coefBlk.seg ++ [cn, 0]) := by
        show storeConcat (cleanupStore (1 + (st.n - 1 + 1)) _) = _
        rw [cleanupStore_concat _ 1 _ hcoefcontig]
        rw [List.take_of_length_le (by omega), hcoefconcat]
      have hpolyclean : storeConcat
          (cleanup_register (st.n - 1) 1
            (flushPoly rmid ⟨st.polyBlk.startn, st.polyBlk.seg ++ [Bn]⟩)).polyStore
          = storeConcat st.regs.polyStore ++ (st.polyBlk.seg ++ [Bn]) := by
        show storeConcat (cleanupStore (1 + (st.n - 1)) _) = _
        rw [cleanupStore_concat _ 1 _ hpolycontig]
        rw [List.take_of_length_le (by omega), hpolyconcat]
      refine ⟨_, rfl, ?_, ?_, ?_, ?_, ?_, rfl⟩
      · rw [hcoefclean, ← List.append_assoc]
      · rw [hpolyclean, ← List.append_assoc]
      · rw [hcoefclean, hpolyclean]
        simp only [List.length_append, List.length_cons, List.length_nil]
        omega
      · rw [hcoefclean]
        rw [show storeConcat st.regs.coefStore ++ (st.coefBlk.seg ++ [cn, 0])
            = (storeConcat st.regs.coefStore ++ st.coefBlk.seg ++ [cn]) ++ [0] by
          simp]
        exact List.getLast?_concat _
      · rw [cleanup_register_periodic]
        have h1 : ((st.n - 1 : Nat) : Int) = (st.n : Int) - 1 := by omega
        rw [h1]
        norm_num
    by_cases hmid :
        P.max_blk_len ≤ (st.coefBlk.seg ++ [cn]).length
    · have heq : fallbackPhase P st xi = .done .simpleParry
          (cleanup_register (st.n - 1) 1
            (flushPoly
              (flushCoef (flushCoef r0 ⟨st.coefBlk.startn, st.coefBlk.seg ++ [cn]⟩)
                ⟨st.coefBlk.startn + (st.coefBlk.seg ++ [cn]).length, [0]⟩)
              ⟨st.polyBlk.startn, st.polyBlk.seg ++ [Bn]⟩)) := by
        simp only [fallbackPhase]
        rw [if_neg hneg, ← hcn, ← hBn, if_neg hany, if_pos hmid]
        simp only [List.nil_append, List.length_cons, List.length_append,
          List.length_nil]
        rw [if_pos (by omega : (0 : Nat) < 1),
          if_pos (by omega : (0 : Nat) < st.polyBlk.seg.length + 1)]
      rw [heq]
      apply key
      · rw [flushCoef_coefStore, flushCoef_coefStore, hr0c,
          storeConcat_append, storeConcat_append]
        simp
      · rw [flushCoef_coefStore, flushCoef_coefStore, hr0c]
        apply contiguousFromB_append
        · exact contiguousFromB_append _ 1 _ hcc (by rw [hcs])
        · rw [storeConcat_append]
          simp only [List.length_append, List.length_cons, List.length_nil]
          omega
      · rw [flushCoef_polyStore, flushCoef_polyStore, hr0p]
      · show r0.periodic = st.regs.periodic
        rw [hr0]
        by_cases h : cn = 0 <;> simp [h, setStatus]
    · have heq : fallbackPhase P st xi = .done .simpleParry
          (cleanup_register (st.n - 1) 1
            (flushPoly
              (flushCoef r0
                ⟨st.coefBlk.startn, (st.coefBlk.seg ++ [cn]) ++ [0]⟩)
              ⟨st.polyBlk.startn, st.polyBlk.seg ++ [Bn]⟩)) := by
        simp only [fallbackPhase]
        rw [if_neg hneg, ← hcn, ← hBn, if_neg hany, if_neg hmid]
        simp only [List.length_append, List.length_cons, List.length_nil]
        rw [if_pos (by omega : (0 : Nat) < st.coefBlk.seg.length + 1 + 1),
          if_pos (by omega : (0 : Nat) < st.polyBlk.seg.length + 1)]
      rw [heq]
      apply key
      · rw [flushCoef_coefStore, hr0c, storeConcat_append]
        simp
      · rw [flushCoef_coefStore, hr0c]
        apply contiguousFromB_append _ 1 _ hcc
        rw [hcs]
      · rw [flushCoef_polyStore, hr0p]
      · show r0.periodic = st.regs.periodic
        rw [hr0]
        by_cases h : cn = 0 <;> simp [h, setStatus]
  · intro hneg hex
    have hany : ((List.range P.deg).any
        (fun j => !((calc_Bn st.Bn_1 (mp_round xi) P.min_poly).coefs.getD j 0
          == 0)) = true) := by
      rw [List.any_eq_true]
      obtain ⟨j, hj, hnz⟩ := hex
      exact ⟨j, List.mem_range.mpr hj, by
        rw [Bool.not_eq_true', beq_eq_false_iff_ne]
        exact hnz⟩
    have heq : fallbackPhase P st xi = .done .precFail
        (setStatus
          (flushBoth
            (if mp_round xi = 0 then
              setStatus st.regs ((st.n : Int) - 1, (st.n : Int), -1)
            else st.regs)
            st.coefBlk st.polyBlk)
          ((st.n : Int) - 1, (st.n : Int), -1)) := by
      rw [fallbackPhase, if_neg hneg, if_pos hany]
    refine ⟨_, heq, rfl, ?_⟩
    rw [setStatus_periodic, flushBoth_periodic]
    by_cases h : mp_round xi = 0 <;> simp [h, setStatus]

/-- The pre-period scan cannot fall through unmatched when the period
search succeeded: position `k - 1` always matches, so the first match
exists and lies below `k`. -/
theorem findPreperiod_matches (k p : Nat) (B : Nat → IntPoly) (hk : 1 ≤ k)
    (h : (B k).c_eq (B (k + p)) = true) :
    (B (findPreperiod k p B + 1)).c_eq (B (findPreperiod k p B + p + 1)) = true
    ∧ findPreperiod k p B < k := by
  rcases hf : (List.range k).find? (fun m => (B (m + 1)).c_eq (B (m + p + 1))) with _ | m
  · exfalso
    have hnone := List.find?_eq_none.mp hf (k - 1) (List.mem_range.mpr (by omega))
    apply hnone
    show (B (k - 1 + 1)).c_eq (B (k - 1 + p + 1)) = true
    have e1 : k - 1 + 1 = k := by omega
    have e2 : k - 1 + p + 1 = k + p := by omega
    rw [e1, e2]
    exact h
  · have hmem := List.mem_range.mp (List.mem_of_find?_eq_some hf)
    have hpred := List.find?_some hf
    rw [findPreperiod, hf]
    exact ⟨hpred, hmem⟩

/-- The fallback branch never reports a consistency error. -/
theorem fallbackPhase_ne_cerr (P : Params) (st : LoopState) (xi : ℚ) (r : Regs) :
    fallbackPhase P st xi ≠ .cerr r := by
  simp only [fallbackPhase]
  split_ifs <;> simp

/-- The inner precision loop never reports a consistency error. -/
theorem innerLoop_out_ne_cerr (P : Params) (st : LoopState) :
    ∀ fuel x y r, innerLoop P st fuel x y ≠ .out (.cerr r) := by
  intro fuel
  induction fuel with
  | zero =>
      intro x y r h
      rw [innerLoop] at h
      simp at h
  | succ n ih =>
      intro x y r h
      rw [innerLoop] at h
      cases hi : innerIter P st x y with
      | overflow r' =>
          rw [hi] at h
          simp at h
      | escal x' y' =>
          rw [hi] at h
          exact ih x' y' r h
      | fall o =>
          rw [hi] at h
          simp only [innerIter] at hi
          split_ifs at hi
          all_goals first
            | exact InnerOut.noConfusion hi
            | (have ho := InnerOut.fall.inj hi
               have hout := LoopRes.out.inj h
               rw [← ho] at hout
               exact fallbackPhase_ne_cerr P st _ r hout)
      | exitLoop xi =>
          rw [hi] at h
          simp at h

/-- A consistency error out of a full step comes from the accept phase. -/
theorem stepN_cerr_src (P : Params) (st : LoopState) (r : Regs)
    (h : stepN P st = .cerr r) : ∃ xi, acceptPhase P st xi = .cerr r := by
  simp only [stepN] at h
  rcases hl : innerLoop P st (innerFuel P st) (stepInitPrec P st.offset).1
      (stepInitPrec P st.offset).2 with o | xi
  · rw [hl] at h
    have ho : o = .cerr r := h
    rw [ho] at hl
    exact absurd hl (innerLoop_out_ne_cerr P st _ _ _ r)
  · rw [hl] at h
    exact ⟨xi, h⟩

/-- A consistency error out of the accept phase surfaces the registers
untouched and records the failed period search. -/
theorem acceptPhase_cerr_eq (P : Params) (st : LoopState) (xi : ℚ) (r : Regs)
    (h : acceptPhase P st xi = .cerr r) :
    r = st.regs
    ∧ calc_minimal_period (st.n / 2)
        (orbitGet st.regs (st.polyBlk.seg ++ [calc_Bn st.Bn_1 (calc_cn xi) P.min_poly]) st.cursor)
        (orbitGet st.regs (st.polyBlk.seg ++ [calc_Bn st.Bn_1 (calc_cn xi) P.min_poly])) = none := by
  simp only [acceptPhase] at h
  split at h
  · simp at h
  · split at h
    · simp at h
    · split at h
      · simp at h
      · split at h
        · split at h
          · rename_i hmp
            exact ⟨(StepOut.cerr.inj h).symm, hmp⟩
          · simp at h
        · split at h
          · simp at h
          · simp at h

/-- A consistency error out of the bounded orbit loop comes from a step. -/
theorem runLoop_cerr_src (P : Params) (stopCk : Bool) :
    ∀ fuel st r, runLoop P stopCk fuel st = .cerr r →
      ∃ st', stepN P st' = .cerr r := by
  intro fuel
  induction fuel with
  | zero =>
      intro st r h
      rw [runLoop] at h
      split at h
      · exact RunOut.noConfusion h
      · exact RunOut.noConfusion h
  | succ n ih =>
      intro st r h
      rw [runLoop] at h
      split at h
      · exact RunOut.noConfusion h
      · cases hs : stepN P st with
        | done w r' =>
            simp only [hs] at h
            exact RunOut.noConfusion h
        | cerr r' =>
            simp only [hs] at h
            have hr : r' = r := RunOut.cerr.inj h
            exact ⟨st, by rw [hs, hr]⟩
        | fuelOut st' =>
            simp only [hs] at h
            exact RunOut.noConfusion h
        | cont st' ck =>
            simp only [hs] at h
            split at h
            · exact RunOut.noConfusion h
            · exact ih st' r h

theorem flushCoef_periodic (r : Regs) (b : Blk Int) :
    (flushCoef r b).periodic = r.periodic := rfl

theorem flushPoly_periodic (r : Regs) (b : Blk IntPoly) :
    (flushPoly r b).periodic = r.periodic := rfl

theorem flushCoef_status (r : Regs) (b : Blk Int) :
    (flushCoef r b).status = r.status := rfl

theorem flushPoly_status (r : Regs) (b : Blk IntPoly) :
    (flushPoly r b).status = r.status := rfl

/-- The startup offset formula telescopes along `_prec_offset`. -/
theorem offsetF_step (P : Params) (b b' : IntPoly) :
    offsetF P b + prec_offset b' b = offsetF P b' := by
  simp only [offsetF, prec_offset]
  ring

/-- The fallback branch always reports a terminal outcome. -/
theorem fallbackPhase_shape (P : Params) (st : LoopState) (xi : ℚ) :
    ∃ w r, fallbackPhase P st xi = .done w r := by
  simp only [fallbackPhase]
  split_ifs <;> exact ⟨_, _, rfl⟩

/-- The inner precision loop hands out only terminal or fuel outcomes. -/
theorem innerLoop_out_shape (P : Params) (st : LoopState) :
    ∀ fuel x y o, innerLoop P st fuel x y = .out o →
      (∃ w r, o = .done w r) ∨ o = .fuelOut st := by
  intro fuel
  induction fuel with
  | zero =>
      intro x y o h
      rw [innerLoop] at h
      exact Or.inr (LoopRes.out.inj h).symm
  | succ n ih =>
      intro x y o h
      rw [innerLoop] at h
      cases hi : innerIter P st x y with
      | overflow r' =>
          rw [hi] at h
          exact Or.inl ⟨_, _, (LoopRes.out.inj h).symm⟩
      | escal x' y' =>
          rw [hi] at h
          exact ih x' y' o h
      | fall o' =>
          rw [hi] at h
          have ho' : o' = o := LoopRes.out.inj h
          simp only [innerIter] at hi
          split_ifs at hi
          all_goals first
            | exact InnerOut.noConfusion hi
            | (obtain ⟨w, r, hw⟩ := fallbackPhase_shape P st (P.xiAt st.Bn_1 x)
               exact Or.inl ⟨w, r, by rw [← ho', ← InnerOut.fall.inj hi, hw]⟩)
      | exitLoop xi =>
          rw [hi] at h
          exact LoopRes.noConfusion h

/-- Every continuing accept step advances `n` by one. -/
theorem acceptPhase_cont_n (P : Params) (st : LoopState) (xi : ℚ)
    (st' : LoopState) (ck : Bool) (h : acceptPhase P st xi = .cont st' ck) :
    st'.n = st.n + 1 := by
  simp only [acceptPhase] at h
  split at h
  · exact StepOut.noConfusion h
  · split at h
    · exact StepOut.noConfusion h
    · split at h
      · exact StepOut.noConfusion h
      · split at h
        · split at h
          · exact StepOut.noConfusion h
          · exact StepOut.noConfusion h
        · split at h
          · rw [← (StepOut.cont.inj h).1]
          · rw [← (StepOut.cont.inj h).1]

/-- Every continuing full step advances `n` by one. -/
theorem stepN_cont_n (P : Params) (st : LoopState) (st' : LoopState)
    (ck : Bool) (h : stepN P st = .cont st' ck) : st'.n = st.n + 1 := by
  simp only [stepN] at h
  rcases hl : innerLoop P st (innerFuel P st) (stepInitPrec P st.offset).1
      (stepInitPrec P st.offset).2 with o | xi
  · rw [hl] at h
    rcases innerLoop_out_shape P st _ _ _ _ hl with ⟨w, r, hw⟩ | hw
    · rw [hw] at h
      exact StepOut.noConfusion h
    · rw [hw] at h
      exact StepOut.noConfusion h
  · rw [hl] at h
    exact acceptPhase_cont_n P st xi st' ck h

/-- Past the maximum orbit length the loop finishes identically for any
fuel and stop mode. -/
theorem runLoop_exhausted (P : Params) (b : Bool) (fuel : Nat)
    (st : LoopState) (hn : P.max_poly_orbit_len < st.n) :
    runLoop P b fuel st = .finished .lenExhausted
      (setStatus (flushBoth st.regs st.coefBlk st.polyBlk)
        ((P.max_poly_orbit_len : Int), -1, -1)) := by
  rw [runLoop.eq_def]
  exact if_pos hn

/-- One unfolding of the loop below the maximum orbit length. -/
theorem runLoop_succ (P : Params) (b : Bool) (fuel : Nat) (st : LoopState)
    (hn : ¬ P.max_poly_orbit_len < st.n) :
    runLoop P b (fuel + 1) st
      = match stepN P st with
        | .done why r => .finished why r
        | .cerr r => .cerr r
        | .fuelOut st' => .fuelOut st'.regs
        | .cont st' ck =>
            if b && ck then .ck st'.regs else runLoop P b fuel st' := by
  rw [runLoop.eq_def]
  exact if_neg hn

/-- The resume driver passes any non-checkpoint outcome through. -/
theorem resumeLoop_pass (P : Params) :
    ∀ fuel o, (∀ r, o ≠ .ck r) → resumeLoop P fuel o = o := by
  intro fuel o h
  cases fuel with
  | zero => rfl
  | succ f =>
      cases o with
      | noop r => rfl
      | errVal r => rfl
      | earlyPrec r => rfl
      | finished w r => rfl
      | cerr r => rfl
      | ck r => exact absurd rfl (h r)
      | fuelOut r => rfl

/-- Fuel does not matter once it covers the remaining orbit length. -/
theorem runLoop_fuel_eq (P : Params) (b : Bool) :
    ∀ f1 f2 st, P.max_poly_orbit_len + 1 ≤ f1 + st.n →
      P.max_poly_orbit_len + 1 ≤ f2 + st.n →
      runLoop P b f1 st = runLoop P b f2 st := by
  intro f1
  induction f1 with
  | zero =>
      intro f2 st h1 h2
      have hn : P.max_poly_orbit_len < st.n := by omega
      rw [runLoop_exhausted P b 0 st hn, runLoop_exhausted P b f2 st hn]
  | succ n1 ih =>
      intro f2 st h1 h2
      by_cases hn : P.max_poly_orbit_len < st.n
      · rw [runLoop_exhausted P b _ st hn, runLoop_exhausted P b f2 st hn]
      · rcases f2 with _ | f2'
        · exact absurd (by omega) hn
        · rw [runLoop_succ P b n1 st hn, runLoop_succ P b f2' st hn]
          cases hs : stepN P st with
          | done w r => simp only [hs]
          | cerr r => simp only [hs]
          | fuelOut st1 => simp only [hs]
          | cont st1 ck =>
              simp only [hs]
              have hsn := stepN_cont_n P st st1 ck hs
              by_cases hc : (b && ck) = true
              · rw [if_pos hc, if_pos hc]
              · rw [if_neg hc, if_neg hc]
                exact ih f2' st1 (by omega) (by omega)

/-- A continuing accept step preserves the loop invariant; on a
checkpoint continuation the buffers are freshly emptied. -/
theorem Inv_step (P : Params) (st : LoopState) (xi : ℚ) (st' : LoopState)
    (ck : Bool) (hI : Inv P st) (h : acceptPhase P st xi = .cont st' ck) :
    Inv P st' ∧ st'.n = st.n + 1
    ∧ (ck = true → st'.coefBlk.seg = [] ∧ st'.polyBlk.seg = []) := by
  obtain ⟨hn1, hoff, hcur, hc4, hc5, hc6, hc7, hst8, hper9, hlast10⟩ := hI
  simp only [acceptPhase] at h
  split at h
  · exact StepOut.noConfusion h
  · split at h
    · exact StepOut.noConfusion h
    · split at h
      · exact StepOut.noConfusion h
      · split at h
        · split at h
          · exact StepOut.noConfusion h
          · exact StepOut.noConfusion h
        · split at h
          · -- checkpoint continuation
            injection h with h1 h2
            subst h1
            refine ⟨⟨?_, ?_, ?_, ?_, ?_, ?_, ?_, ?_, ?_, ?_⟩, rfl, fun _ => ⟨rfl, rfl⟩⟩
            · show 1 ≤ st.n + 1
              omega
            · show st.offset + prec_offset (calc_Bn st.Bn_1 (calc_cn xi) P.min_poly) st.Bn_1
                = offsetF P (calc_Bn st.Bn_1 (calc_cn xi) P.min_poly)
              rw [hoff, offsetF_step]
            · show (if 2 * (st.n / 2) = st.n then st.cursor + 1 else st.cursor)
                = (st.n + 1 + 1) / 2
              rw [hcur]
              split_ifs with he <;> omega
            · show st.coefBlk.startn + (st.coefBlk.seg ++ [calc_cn xi]).length
                + ([] : List Int).length = st.n + 1
              simp only [List.length_append, List.length_cons, List.length_nil]
              omega
            · show st.polyBlk.startn
                + (st.polyBlk.seg ++ [calc_Bn st.Bn_1 (calc_cn xi) P.min_poly]).length
                + ([] : List IntPoly).length = st.n + 1
              simp only [List.length_append, List.length_cons, List.length_nil]
              omega
            · show (storeConcat (setStatus
                  (flushPoly (flushCoef st.regs ⟨st.coefBlk.startn, st.coefBlk.seg ++ [calc_cn xi]⟩)
                    ⟨st.polyBlk.startn, st.polyBlk.seg ++ [calc_Bn st.Bn_1 (calc_cn xi) P.min_poly]⟩)
                  ((st.n : Int), -1, -1)).coefStore).length
                + ([] : List Int).length = st.n + 1 - 1
              rw [setStatus_coefStore, flushPoly_coefStore, flushCoef_coefStore,
                storeConcat_append]
              simp only [List.length_append, List.length_cons, List.length_nil]
              omega
            · show (storeConcat (setStatus
                  (flushPoly (flushCoef st.regs ⟨st.coefBlk.startn, st.coefBlk.seg ++ [calc_cn xi]⟩)
                    ⟨st.polyBlk.startn, st.polyBlk.seg ++ [calc_Bn st.Bn_1 (calc_cn xi) P.min_poly]⟩)
                  ((st.n : Int), -1, -1)).polyStore).length
                + ([] : List IntPoly).length = st.n + 1 - 1
              rw [setStatus_polyStore, flushPoly_polyStore, flushCoef_polyStore,
                storeConcat_append]
              simp only [List.length_append, List.length_cons, List.length_nil]
              omega
            · show ((st.n : Int), (-1 : Int), (-1 : Int))
                = (((st.coefBlk.startn + (st.coefBlk.seg ++ [calc_cn xi]).length : Nat) : Int) - 1,
                    -1, -1)
              simp only [List.length_append, List.length_cons, List.length_nil,
                Prod.mk.injEq, and_true]
              omega
            · show (setStatus
                  (flushPoly (flushCoef st.regs ⟨st.coefBlk.startn, st.coefBlk.seg ++ [calc_cn xi]⟩)
                    ⟨st.polyBlk.startn, st.polyBlk.seg ++ [calc_Bn st.Bn_1 (calc_cn xi) P.min_poly]⟩)
                  ((st.n : Int), -1, -1)).periodic = (-1, -1)
              rw [setStatus_periodic, flushPoly_periodic, flushCoef_periodic]
              exact hper9
            · intro _
              show (storeConcat (setStatus
                  (flushPoly (flushCoef st.regs ⟨st.coefBlk.startn, st.coefBlk.seg ++ [calc_cn xi]⟩)
                    ⟨st.polyBlk.startn, st.polyBlk.seg ++ [calc_Bn st.Bn_1 (calc_cn xi) P.min_poly]⟩)
                  ((st.n : Int), -1, -1)).polyStore ++ ([] : List IntPoly)).getLast?
                = some (calc_Bn st.Bn_1 (calc_cn xi) P.min_poly)
              rw [setStatus_polyStore, flushPoly_polyStore, flushCoef_polyStore,
                storeConcat_append, List.append_nil, ← List.append_assoc]
              exact List.getLast?_concat _
          · -- plain continuation
            injection h with h1 h2
            subst h1
            refine ⟨⟨?_, ?_, ?_, ?_, ?_, ?_, ?_, ?_, ?_, ?_⟩, rfl,
              fun hx => absurd hx (by rw [← h2]; simp)⟩
            · show 1 ≤ st.n + 1
              omega
            · show st.offset + prec_offset (calc_Bn st.Bn_1 (calc_cn xi) P.min_poly) st.Bn_1
                = offsetF P (calc_Bn st.Bn_1 (calc_cn xi) P.min_poly)
              rw [hoff, offsetF_step]
            · show (if 2 * (st.n / 2) = st.n then st.cursor + 1 else st.cursor)
                = (st.n + 1 + 1) / 2
              rw [hcur]
              split_ifs with he <;> omega
            · show st.coefBlk.startn + (st.coefBlk.seg ++ [calc_cn xi]).length = st.n + 1
              simp only [List.length_append, List.length_cons, List.length_nil]
              omega
            · show st.polyBlk.startn
                + (st.polyBlk.seg ++ [calc_Bn st.Bn_1 (calc_cn xi) P.min_poly]).length
                = st.n + 1
              simp only [List.length_append, List.length_cons, List.length_nil]
              omega
            · show (storeConcat st.regs.coefStore).length
                + (st.coefBlk.seg ++ [calc_cn xi]).length = st.n + 1 - 1
              simp only [List.length_append, List.length_cons, List.length_nil]
              omega
            · show (storeConcat st.regs.polyStore).length
                + (st.polyBlk.seg ++ [calc_Bn st.Bn_1 (calc_cn xi) P.min_poly]).length
                = st.n + 1 - 1
              simp only [List.length_append, List.length_cons, List.length_nil]
              omega
            · exact hst8
            · exact hper9
            · intro _
              show (storeConcat st.regs.polyStore
                  ++ (st.polyBlk.seg ++ [calc_Bn st.Bn_1 (calc_cn xi) P.min_poly])).getLast?
                = some (calc_Bn st.Bn_1 (calc_cn xi) P.min_poly)
              rw [← List.append_assoc]
              exact List.getLast?_concat _

/-- A continuing full step preserves the loop invariant. -/
theorem stepN_cont_char (P : Params) (st : LoopState) (st' : LoopState)
    (ck : Bool) (hI : Inv P st) (h : stepN P st = .cont st' ck) :
    Inv P st' ∧ st'.n = st.n + 1
    ∧ (ck = true → st'.coefBlk.seg = [] ∧ st'.polyBlk.seg = []) := by
  simp only [stepN] at h
  rcases hl : innerLoop P st (innerFuel P st) (stepInitPrec P st.offset).1
      (stepInitPrec P st.offset).2 with o | xi
  · rw [hl] at h
    rcases innerLoop_out_shape P st _ _ _ _ hl with ⟨w, r, hw⟩ | hw
    · rw [hw] at h
      exact StepOut.noConfusion h
    · rw [hw] at h
      exact StepOut.noConfusion h
  · rw [hl] at h
    exact Inv_step P st xi st' ck hI h

theorem getD_last {α : Type} (l : List α) (a d : α)
    (h : l.getLast? = some a) : l.getD (l.length - 1) d = a := by
  rw [List.getD_eq_getElem?_getD, ← List.getLast?_eq_getElem?, h]
  rfl

/-- Starting over from the registers persisted at a checkpoint
reconstructs the interrupted in-memory state exactly. -/
theorem startOrbit_resume (P : Params) (st : LoopState)
    (hI : Inv P st) (h2 : 2 ≤ st.n)
    (hc : st.coefBlk.seg = []) (hp : st.polyBlk.seg = [])
    (hg1 : ¬ P.maxPrec < x_prec_lower_bound P) (hg2 : ¬ P.maxPrec < 0) :
    startOrbit P st.regs = .ready st := by
  obtain ⟨hn1, hoff, hcur, hc4, hc5, hc6, hc7, hst8, hper9, hlast10⟩ := hI
  have hsnc : st.coefBlk.startn = st.n := by
    rw [hc] at hc4
    simpa using hc4
  have hplen : (storeConcat st.regs.polyStore).length = st.n - 1 := by
    rw [hp] at hc7
    simpa using hc7
  have hlast : (storeConcat st.regs.polyStore).getLast? = some st.Bn_1 := by
    have hq := hlast10 h2
    rw [hp, List.append_nil] at hq
    exact hq
  have e3 : st.regs.status.1 = (st.n : Int) - 1 := by
    rw [hst8, hsnc]
  have hne1 : ¬ st.regs.status.2.2 ≠ -1 := by
    rw [hst8]
    intro hh
    exact hh rfl
  have hne2 : ¬ st.regs.periodic.1 ≠ -1 := by
    rw [hper9]
    intro hh
    exact hh rfl
  have hlt : 1 < st.regs.status.1 + 1 := by
    rw [e3]
    omega
  have hnstart : (st.regs.status.1 + 1).toNat = st.n := by
    rw [e3]
    omega
  have hBn : orbitGet st.regs [] (st.n - 1) = st.Bn_1 := by
    simp only [orbitGet, List.append_nil]
    have hl : st.n - 1 - 1 = (storeConcat st.regs.polyStore).length - 1 := by
      omega
    rw [hl]
    exact getD_last _ _ _ hlast
  simp only [startOrbit]
  rw [if_neg hne1, if_neg hne2, if_pos hlt, if_neg hg1, if_neg hg2]
  rw [hnstart, hBn, ← hoff]
  have hcb : (⟨st.n, []⟩ : Blk Int) = st.coefBlk := by
    rw [← hsnc, ← hc]
  have hpbs : st.polyBlk.startn = st.n := by
    rw [hp] at hc5
    simpa using hc5
  have hpb : (⟨st.n, []⟩ : Blk IntPoly) = st.polyBlk := by
    rw [← hpbs, ← hp]
  rw [hcb, hpb, ← hcur]

/-- Interrupting at every checkpoint and resuming reproduces the
uninterrupted run, from any state satisfying the loop invariant. -/
theorem resumeAux (P : Params)
    (hg1 : ¬ P.maxPrec < x_prec_lower_bound P) (hg2 : ¬ P.maxPrec < 0) :
    ∀ G st fuel, Inv P st → P.max_poly_orbit_len + 2 ≤ G + st.n → G ≤ fuel →
      resumeLoop P fuel (runLoop P true (P.max_poly_orbit_len + 1) st)
        = runLoop P false (P.max_poly_orbit_len + 1) st := by
  intro G
  induction G with
  | zero =>
      intro st fuel hI hG hf
      have hn : P.max_poly_orbit_len < st.n := by omega
      rw [runLoop_exhausted P true _ st hn, runLoop_exhausted P false _ st hn]
      exact resumeLoop_pass P fuel _ (fun r => by simp)
  | succ G ih =>
      intro st fuel hI hG hf
      by_cases hn : P.max_poly_orbit_len < st.n
      · rw [runLoop_exhausted P true _ st hn, runLoop_exhausted P false _ st hn]
        exact resumeLoop_pass P fuel _ (fun r => by simp)
      · rw [runLoop_succ P true P.max_poly_orbit_len st hn,
          runLoop_succ P false P.max_poly_orbit_len st hn]
        cases hs : stepN P st with
        | done w r => exact resumeLoop_pass P fuel _ (fun r' => by simp)
        | cerr r => exact resumeLoop_pass P fuel _ (fun r' => by simp)
        | fuelOut st1 => exact resumeLoop_pass P fuel _ (fun r' => by simp)
        | cont st1 ck =>
            obtain ⟨hI1, hn1, hck⟩ := stepN_cont_char P st st1 ck hI hs
            cases ck with
            | false =>
                show resumeLoop P fuel (runLoop P true P.max_poly_orbit_len st1)
                  = runLoop P false P.max_poly_orbit_len st1
                rw [runLoop_fuel_eq P true P.max_poly_orbit_len
                    (P.max_poly_orbit_len + 1) st1 (by omega) (by omega),
                  runLoop_fuel_eq P false P.max_poly_orbit_len
                    (P.max_poly_orbit_len + 1) st1 (by omega) (by omega)]
                exact ih st1 fuel hI1 (by omega) (by omega)
            | true =>
                obtain ⟨hce, hpe⟩ := hck rfl
                rcases fuel with _ | f'
                · exact absurd hf (by omega)
                · show resumeLoop P (f' + 1) (.ck st1.regs)
                    = runLoop P false P.max_poly_orbit_len st1
                  have hso : singleOrbit P true st1.regs
                      = runLoop P true (P.max_poly_orbit_len + 1) st1 := by
                    rw [singleOrbit, startOrbit_resume P st1 hI1
                      (by have h1 := hI.1; omega) hce hpe hg1 hg2]
                  have hres : resumeLoop P (f' + 1) (.ck st1.regs)
                      = resumeLoop P f' (singleOrbit P true st1.regs) := rfl
                  rw [hres, hso, ih st1 f' hI1 (by omega) (by omega)]
                  exact runLoop_fuel_eq P false (P.max_poly_orbit_len + 1)
                    P.max_poly_orbit_len st1 (by omega) (by omega)

/-- Startup on the fresh (never-run) registers. -/
theorem startOrbit_fresh (P : Params)
    (hg1 : ¬ P.maxPrec < x_prec_lower_bound P) (hg2 : ¬ P.maxPrec < 0) :
    startOrbit P ⟨[], [], (0, -1, -1), (-1, -1)⟩
      = .ready { n := 1, Bn_1 := P.seedB0, offset := offsetF P P.seedB0,
                 coefBlk := ⟨1, []⟩, polyBlk := ⟨1, []⟩, cursor := 1,
                 regs := ⟨[], [], (0, -1, -1), (-1, -1)⟩ } := by
  simp only [startOrbit]
  rw [if_neg hg1, if_neg hg2, if_neg (by decide : ¬ (1 : Int) < 0 + 1)]
  norm_num

/-- The fresh starting state satisfies the loop invariant. -/
theorem Inv_fresh (P : Params) :
    Inv P { n := 1, Bn_1 := P.seedB0, offset := offsetF P P.seedB0,
            coefBlk := ⟨1, []⟩, polyBlk := ⟨1, []⟩, cursor := 1,
            regs := ⟨[], [], (0, -1, -1), (-1, -1)⟩ } := by
  refine ⟨?_, ?_, ?_, ?_, ?_, ?_, ?_, ?_, ?_, ?_⟩
  · exact le_refl 1
  · rfl
  · show 1 = (1 + 1) / 2
    decide
  · rfl
  · rfl
  · rfl
  · rfl
  · show ((0 : Int), (-1 : Int), (-1 : Int)) = (((1 : Nat) : Int) - 1, -1, -1)
    decide
  · rfl
  · intro h
    exact absurd h (by norm_num)

/-- C9: running an orbit in one uninterrupted invocation and running it
interrupted after every checkpoint flush with resumption produce the same
outcome, hence identical persisted digit and polynomial stores and the
same PeriodicityRecord, from the fresh registers, as long as the sanity
checks pass and the resume budget covers the orbit length. -/
theorem C9_resume_equivalence (P : Params) (fuel : Nat)
    (hg1 : ¬ P.maxPrec < x_prec_lower_bound P) (hg2 : ¬ P.maxPrec < 0)
    (hfuel : P.max_poly_orbit_len + 1 ≤ fuel) :
    runInterrupted P ⟨[], [], (0, -1, -1), (-1, -1)⟩ fuel
      = singleOrbit P false ⟨[], [], (0, -1, -1), (-1, -1)⟩ := by
  rw [runInterrupted]
  simp only [singleOrbit, startOrbit_fresh P hg1 hg2]
  refine resumeAux P hg1 hg2 fuel _ fuel (Inv_fresh P) ?_ (le_refl fuel)
  show P.max_poly_orbit_len + 2 ≤ fuel + 1
  omega

/-- Witness for C9 over `x^2 - 3x + 1` with the golden-mean-square
`beta0` and a resume budget covering the whole orbit length. -/
theorem C9_resume_equivalence_witness :
    runInterrupted
      { min_poly := ⟨[1, -3, 1]⟩
        beta0 := 2618033988 / 1000000000
        max_blk_len := 2
        max_poly_orbit_len := 20
        maxPrec := 100
        amb := fun _ _ => false
        xiAt := fun b _ => b.eval 1 * (2618033988 / 1000000000) }
      ⟨[], [], (0, -1, -1), (-1, -1)⟩ 21
    = singleOrbit
      { min_poly := ⟨[1, -3, 1]⟩
        beta0 := 2618033988 / 1000000000
        max_blk_len := 2
        max_poly_orbit_len := 20
        maxPrec := 100
        amb := fun _ _ => false
        xiAt := fun b _ => b.eval 1 * (2618033988 / 1000000000) }
      false ⟨[], [], (0, -1, -1), (-1, -1)⟩ :=
  C9_resume_equivalence
    { min_poly := ⟨[1, -3, 1]⟩
      beta0 := 2618033988 / 1000000000
      max_blk_len := 2
      max_poly_orbit_len := 20
      maxPrec := 100
      amb := fun _ _ => false
      xiAt := fun b _ => b.eval 1 * (2618033988 / 1000000000) }
    21 (by decide) (by decide) (by decide)

/-- C7: a ConsistencyError surfaces loudly and leaves the orbit
unresolved: any `.cerr` outcome of a full invocation originates in a
period search returning no candidate, with the registers returned exactly
as they stood (no status, periodicity, or store write); and the
pre-period scan can never be the failing one, since a successful period
match forces a pre-period match below `k`. -/
theorem C7_consistency_error (P : Params) (stopCk : Bool) :
    (∀ k p B, 1 ≤ k → (B k).c_eq (B (k + p)) = true →
      (B (findPreperiod k p B + 1)).c_eq (B (findPreperiod k p B + p + 1)) = true
      ∧ findPreperiod k p B < k)
    ∧ (∀ r0 r, singleOrbit P stopCk r0 = .cerr r →
      ∃ st xi, acceptPhase P st xi = .cerr r
        ∧ r = st.regs
        ∧ calc_minimal_period (st.n / 2)
            (orbitGet st.regs
              (st.polyBlk.seg ++ [calc_Bn st.Bn_1 (calc_cn xi) P.min_poly]) st.cursor)
            (orbitGet st.regs
              (st.polyBlk.seg ++ [calc_Bn st.Bn_1 (calc_cn xi) P.min_poly])) = none) := by
  constructor
  · intro k p B hk h
    exact findPreperiod_matches k p B hk h
  · intro r0 r h
    simp only [singleOrbit] at h
    cases hs : startOrbit P r0 with
    | noop r' =>
        rw [hs] at h
        exact absurd h (by simp)
    | errVal r' =>
        rw [hs] at h
        exact absurd h (by simp)
    | earlyPrec r' =>
        rw [hs] at h
        exact absurd h (by simp)
    | ready st1 =>
        rw [hs] at h
        obtain ⟨st, hstep⟩ := runLoop_cerr_src P stopCk (P.max_poly_orbit_len + 1) st1 r h
        obtain ⟨xi, hacc⟩ := stepN_cerr_src P st r hstep
        obtain ⟨hreg, hnone⟩ := acceptPhase_cerr_eq P st xi r hacc
        exact ⟨st, xi, hacc, hreg, hnone⟩

/-- Witness for C7: a crafted register state (stored orbit longer than
its resumable status claims) drives a real invocation into the
consistency error, and the pre-period fact instantiated at a constant
orbit. -/
theorem C7_consistency_error_witness :
    findPreperiod 2 1 (fun _ => (⟨[1, 0]⟩ : IntPoly)) < 2
    ∧ ∃ st xi,
        acceptPhase
          { min_poly := ⟨[1, -3, 1]⟩
            beta0 := 2618033988 / 1000000000
            max_blk_len := 10
            max_poly_orbit_len := 20
            maxPrec := 100
            amb := fun _ _ => false
            xiAt := fun _ _ => 5 / 2 }
          st xi
        = .cerr { polyStore := [⟨1, [⟨[-4, 2]⟩, ⟨[9, 9]⟩]⟩]
                  coefStore := [⟨1, [2]⟩]
                  status := (1, -1, -1)
                  periodic := (-1, -1) }
        ∧ ({ polyStore := [⟨1, [⟨[-4, 2]⟩, ⟨[9, 9]⟩]⟩]
             coefStore := [⟨1, [2]⟩]
             status := (1, -1, -1)
             periodic := (-1, -1) } : Regs) = st.regs := by
  obtain ⟨h1, h2⟩ := C7_consistency_error
    { min_poly := ⟨[1, -3, 1]⟩
      beta0 := 2618033988 / 1000000000
      max_blk_len := 10
      max_poly_orbit_len := 20
      maxPrec := 100
      amb := fun _ _ => false
      xiAt := fun _ _ => 5 / 2 }
    false
  have ha := h1 2 1 (fun _ => ⟨[1, 0]⟩) (by decide) (by decide)
  obtain ⟨st, xi, hc, hd, _⟩ := h2
    { polyStore := [⟨1, [⟨[-4, 2]⟩, ⟨[9, 9]⟩]⟩]
      coefStore := [⟨1, [2]⟩]
      status := (1, -1, -1)
      periodic := (-1, -1) }
    { polyStore := [⟨1, [⟨[-4, 2]⟩, ⟨[9, 9]⟩]⟩]
      coefStore := [⟨1, [2]⟩]
      status := (1, -1, -1)
      periodic := (-1, -1) }
    (by decide)
  exact ⟨ha.2, st, xi, hc, hd⟩

/-- C2: period detection runs only at even step indices `n = 2k`: the
just-accepted `B_n` is compared against the half-speed read at position
`cursor = (n+1)/2 = k`, the cursor advances by one exactly on even steps,
and on a match `_calc_minimal_period` returns the first divisor `p` of
`k` (in increasing order, `p = k` being the final candidate) with
`B_k == B_{k+p}` together with the least pre-period `m` such that
`B_{m+1} == B_{m+p+1}` in the 1-indexed orbit. -/
theorem C2_period_detection (P : Params) (st : LoopState) (xi : ℚ)
    (hn : 1 ≤ st.n) (hcur : st.cursor = (st.n + 1) / 2) :
    (∀ k m p r, acceptPhase P st xi = .done (.periodFound k m p) r →
      2 * (st.n / 2) = st.n
      ∧ k = st.n / 2
      ∧ ∀ B, B = orbitGet st.regs
            (st.polyBlk.seg ++ [calc_Bn st.Bn_1 (calc_cn xi) P.min_poly]) →
          (B k).c_eq (calc_Bn st.Bn_1 (calc_cn xi) P.min_poly) = true
          ∧ p ∣ k
          ∧ (B k).c_eq (B (k + p)) = true
          ∧ (∀ q, q ∣ k → q < p → ¬ (B k).c_eq (B (k + q)) = true)
          ∧ (B (m + 1)).c_eq (B (m + p + 1)) = true
          ∧ (∀ j < m, ¬ (B (j + 1)).c_eq (B (j + p + 1)) = true)
          ∧ m < k)
    ∧ (∀ st' ck, acceptPhase P st xi = .cont st' ck →
        st'.cursor = if 2 * (st.n / 2) = st.n then st.cursor + 1 else st.cursor) := by
  constructor
  · intro k m p r h
    simp only [acceptPhase] at h
    split at h
    · simp at h
    · split at h
      · simp at h
      · split at h
        · simp at h
        · split at h
          · rename_i hev
            split at h
            · simp at h
            · rename_i m' p' hmp
              simp only [StepOut.done.injEq, Reason.periodFound.injEq] at h
              obtain ⟨⟨hk, hm, hp⟩, _⟩ := h
              have heven : 2 * (st.n / 2) = st.n := hev.1
              have hcur2 : st.cursor = st.n / 2 := by omega
              refine ⟨heven, hk.symm, ?_⟩
              intro B hB
              have hk1 : 1 ≤ st.n / 2 := by omega
              have hBk : orbitGet st.regs
                  (st.polyBlk.seg ++ [calc_Bn st.Bn_1 (calc_cn xi) P.min_poly])
                  st.cursor = B (st.n / 2) := by
                rw [hB, hcur2]
              have hspec := calc_minimal_period_spec (st.n / 2) hk1
                (orbitGet st.regs
                  (st.polyBlk.seg ++ [calc_Bn st.Bn_1 (calc_cn xi) P.min_poly])
                  st.cursor)
                B hBk m p (by rw [hB, ← hm, ← hp]; exact hmp)
              have hmatch : (B (st.n / 2)).c_eq
                  (calc_Bn st.Bn_1 (calc_cn xi) P.min_poly) = true := by
                rw [← hBk]
                exact hev.2
              rw [← hk]
              exact ⟨hmatch, hspec.1, hspec.2.1, hspec.2.2.1, hspec.2.2.2.1,
                hspec.2.2.2.2.1, hspec.2.2.2.2.2⟩
          · split at h
            · simp at h
            · simp at h
  · intro st' ck h
    simp only [acceptPhase] at h
    split at h
    · simp at h
    · split at h
      · simp at h
      · split at h
        · simp at h
        · split at h
          · split at h
            · simp at h
            · simp at h
          · split at h
            · simp only [StepOut.cont.injEq] at h
              rw [← h.1]
            · simp only [StepOut.cont.injEq] at h
              rw [← h.1]

/-- Witness for C2 at a concrete even step `n = 4` with stored orbit
`1, x, x^2` and accepted `B_4 = x`: the detector fires with `k = 2` and
returns pre-period `1`, period `2`. -/
theorem C2_period_detection_witness :
    ∃ r,
      acceptPhase
        { min_poly := ⟨[0, -1, 0, 1]⟩
          beta0 := 19 / 10
          max_blk_len := 10
          max_poly_orbit_len := 20
          maxPrec := 100
          amb := fun _ _ => false
          xiAt := fun _ _ => 1 / 2 }
        { n := 4
          Bn_1 := ⟨[1, 0, 0]⟩
          offset := 0
          coefBlk := ⟨4, []⟩
          polyBlk := ⟨4, []⟩
          cursor := 2
          regs := { polyStore := [⟨1, [⟨[1, 0, 0]⟩, ⟨[0, 1, 0]⟩, ⟨[0, 0, 1]⟩]⟩]
                    coefStore := [⟨1, [1, 1, 1]⟩]
                    status := (3, -1, -1)
                    periodic := (-1, -1) } }
        (1 / 2)
      = .done (.periodFound 2 1 2) r
      ∧ (2 : Nat) ∣ 2 ∧ (1 : Nat) < 2 ∧ 2 * (4 / 2) = 4 := by
  obtain ⟨r, hr⟩ : ∃ r,
      acceptPhase
        { min_poly := ⟨[0, -1, 0, 1]⟩
          beta0 := 19 / 10
          max_blk_len := 10
          max_poly_orbit_len := 20
          maxPrec := 100
          amb := fun _ _ => false
          xiAt := fun _ _ => 1 / 2 }
        { n := 4
          Bn_1 := ⟨[1, 0, 0]⟩
          offset := 0
          coefBlk := ⟨4, []⟩
          polyBlk := ⟨4, []⟩
          cursor := 2
          regs := { polyStore := [⟨1, [⟨[1, 0, 0]⟩, ⟨[0, 1, 0]⟩, ⟨[0, 0, 1]⟩]⟩]
                    coefStore := [⟨1, [1, 1, 1]⟩]
                    status := (3, -1, -1)
                    periodic := (-1, -1) } }
        (1 / 2)
      = .done (.periodFound 2 1 2) r := ⟨_, rfl⟩
  obtain ⟨hev, hk, hB⟩ := (C2_period_detection
    { min_poly := ⟨[0, -1, 0, 1]⟩
      beta0 := 19 / 10
      max_blk_len := 10
      max_poly_orbit_len := 20
      maxPrec := 100
      amb := fun _ _ => false
      xiAt := fun _ _ => 1 / 2 }
    { n := 4
      Bn_1 := ⟨[1, 0, 0]⟩
      offset := 0
      coefBlk := ⟨4, []⟩
      polyBlk := ⟨4, []⟩
      cursor := 2
      regs := { polyStore := [⟨1, [⟨[1, 0, 0]⟩, ⟨[0, 1, 0]⟩, ⟨[0, 0, 1]⟩]⟩]
                coefStore := [⟨1, [1, 1, 1]⟩]
                status := (3, -1, -1)
                periodic := (-1, -1) } }
    (1 / 2) (by decide) (by decide)).1 2 1 2 r hr
  obtain ⟨_, hdvd, _, _, _, _, hm⟩ := hB _ rfl
  exact ⟨r, hr, hdvd, hm, hev⟩

theorem base2_magn_nonneg (x : Int) : 0 ≤ base2_magn x :=
  Int.natCast_nonneg _

theorem base2_magn_mono {a b : Int} (h : a ≤ b) :
    base2_magn a ≤ base2_magn b := by
  rw [base2_magn_eq_size, base2_magn_eq_size]
  have h1 : a.toNat ≤ b.toNat := Int.toNat_le_toNat h
  exact_mod_cast Nat.size_le.2 (lt_of_le_of_lt h1 (Nat.lt_size_self b.toNat))

/-- The startup offset formula dominates its degree term: every offset
value arising in execution is at least `1 + 2 * base2_magn deg`. -/
theorem offsetF_lower (P : Params) (b : IntPoly) :
    1 + 2 * base2_magn (P.deg : Int) ≤ offsetF P b := by
  have h1 := base2_magn_nonneg b.max_abs_coef
  have h2 : 0 ≤ (P.deg : Int) * base2_magn (P.beta0_ceil + 1) :=
    mul_nonneg (Int.natCast_nonneg _) (base2_magn_nonneg _)
  simp only [offsetF]
  linarith

/-- The lower bound of line 638 never exceeds `2 + base2_magn deg`. -/
theorem x_prec_lower_bound_le (P : Params) :
    x_prec_lower_bound P ≤ 2 + base2_magn (P.deg : Int) := by
  have hm : base2_magn ((P.deg : Int) - 1) ≤ base2_magn (P.deg : Int) :=
    base2_magn_mono (by omega)
  have h0 := base2_magn_nonneg (P.deg : Int)
  simp only [x_prec_lower_bound]
  split_ifs <;> omega

/-- When the accepted-step tail continues the loop, the precision offset
changes by exactly `_prec_offset` of the new and old iterates. -/
theorem acceptPhase_cont_offset (P : Params) (st : LoopState) (xi : ℚ)
    (st' : LoopState) (ck : Bool) (h : acceptPhase P st xi = .cont st' ck) :
    st'.offset = st.offset +
      (base2_magn ((calc_Bn st.Bn_1 (calc_cn xi) P.min_poly).max_abs_coef)
        - base2_magn st.Bn_1.max_abs_coef) := by
  simp only [acceptPhase] at h
  split at h
  · exact StepOut.noConfusion h
  · split at h
    · exact StepOut.noConfusion h
    · split at h
      · exact StepOut.noConfusion h
      · split at h
        · split at h
          · exact StepOut.noConfusion h
          · exact StepOut.noConfusion h
        · split at h
          · injection h with h1 h2
            subst h1
            simp [prec_offset]
          · injection h with h1 h2
            subst h1
            simp [prec_offset]

/-- C8: whenever the ambiguity test fails below the precision ceiling and
below the overflow threshold, the escalation doubles `y` and resets `x`
to `y + offset`, clamped so it never exceeds the ceiling and (given the
startup sanity check `lower_bound <= maxPrec`, that `y` has its initial
value `16` or larger, and that the offset carries the startup formula for
some iterate) never falls below the lower bound; at the ceiling the step
is resolved by the fallback policy with no further escalation; and an
accepted step changes the offset by
`base2_magn (max_abs_coef B_n) - base2_magn (max_abs_coef B_{n-1})`. -/
theorem C8_precision_escalation (P : Params) (st : LoopState) (y : Int)
    (hmax : x_prec_lower_bound P ≤ P.maxPrec)
    (h16 : 16 ≤ y)
    (hoff : ∃ b, st.offset = offsetF P b) :
    (escalStep st.offset P.maxPrec y).1 = min (y * 2 + st.offset) P.maxPrec
    ∧ (escalStep st.offset P.maxPrec y).1 ≤ P.maxPrec
    ∧ x_prec_lower_bound P ≤ (escalStep st.offset P.maxPrec y).1
    ∧ (¬ P.maxPrec ≤ y * 2 + st.offset →
        (escalStep st.offset P.maxPrec y).2 = y * 2)
    ∧ (∀ x : Int, ¬ 61 ≤ mpf_base2_magn (P.xiAt st.Bn_1 x) →
        incr_prec P (P.xiAt st.Bn_1 x) y = true →
        (x < P.maxPrec →
          innerIter P st x y =
            .escal (escalStep st.offset P.maxPrec y).1
              (escalStep st.offset P.maxPrec y).2)
        ∧ (¬ x < P.maxPrec →
          innerIter P st x y = .fall (fallbackPhase P st (P.xiAt st.Bn_1 x))))
    ∧ (∀ xi st' ck, acceptPhase P st xi = .cont st' ck →
        st'.offset = st.offset +
          (base2_magn ((calc_Bn st.Bn_1 (calc_cn xi) P.min_poly).max_abs_coef)
            - base2_magn st.Bn_1.max_abs_coef)) := by
  obtain ⟨b, hb⟩ := hoff
  have hofl := offsetF_lower P b
  have hlbd := x_prec_lower_bound_le P
  have hm0 := base2_magn_nonneg (P.deg : Int)
  have part5 : ∀ x : Int, ¬ 61 ≤ mpf_base2_magn (P.xiAt st.Bn_1 x) →
      incr_prec P (P.xiAt st.Bn_1 x) y = true →
      (x < P.maxPrec →
        innerIter P st x y =
          .escal (escalStep st.offset P.maxPrec y).1
            (escalStep st.offset P.maxPrec y).2)
      ∧ (¬ x < P.maxPrec →
        innerIter P st x y = .fall (fallbackPhase P st (P.xiAt st.Bn_1 x))) := by
    intro x h61 hamb
    constructor
    · intro hx
      simp only [innerIter]
      rw [if_neg h61, if_pos hamb, if_pos hx]
    · intro hx
      simp only [innerIter]
      rw [if_neg h61, if_pos hamb, if_neg hx]
  have part6 : ∀ xi st' ck, acceptPhase P st xi = .cont st' ck →
      st'.offset = st.offset +
        (base2_magn ((calc_Bn st.Bn_1 (calc_cn xi) P.min_poly).max_abs_coef)
          - base2_magn st.Bn_1.max_abs_coef) :=
    fun xi st' ck h => acceptPhase_cont_offset P st xi st' ck h
  by_cases hc : P.maxPrec ≤ y * 2 + st.offset
  · have he : escalStep st.offset P.maxPrec y = (P.maxPrec, P.maxPrec - st.offset) := by
      simp only [escalStep]
      rw [if_pos hc]
    refine ⟨?_, ?_, ?_, ?_, part5, part6⟩
    · rw [he]
      exact (min_eq_right hc).symm
    · rw [he]
    · rw [he]
      exact hmax
    · intro hnc
      exact absurd hc hnc
  · have he : escalStep st.offset P.maxPrec y = (y * 2 + st.offset, y * 2) := by
      simp only [escalStep]
      rw [if_neg hc]
    refine ⟨?_, ?_, ?_, ?_, part5, part6⟩
    · rw [he]
      exact (min_eq_left (le_of_not_le hc)).symm
    · rw [he]
      exact le_of_not_le hc
    · rw [he]
      omega
    · intro _
      rw [he]

/-- Witness for C8 at a concrete escalation: `x^2 - 3x + 1` with the
golden-mean-square `beta0`, offset `12` (the startup formula at the seed
iterate `[1, 0]`), `y = 16`, `x = 28` below the ceiling `100`. -/
theorem C8_precision_escalation_witness :
    (escalStep 12 100 16).1 = min (16 * 2 + 12) 100
    ∧ (escalStep 12 100 16).1 ≤ 100
    ∧ x_prec_lower_bound
        { min_poly := ⟨[1, -3, 1]⟩
          beta0 := 2618033988 / 1000000000
          max_blk_len := 10
          max_poly_orbit_len := 20
          maxPrec := 100
          amb := fun _ _ => true
          xiAt := fun _ _ => 1 / 2 }
        ≤ (escalStep 12 100 16).1
    ∧ innerIter
        { min_poly := ⟨[1, -3, 1]⟩
          beta0 := 2618033988 / 1000000000
          max_blk_len := 10
          max_poly_orbit_len := 20
          maxPrec := 100
          amb := fun _ _ => true
          xiAt := fun _ _ => 1 / 2 }
        { n := 1
          Bn_1 := ⟨[1, 0]⟩
          offset := 12
          coefBlk := ⟨1, []⟩
          polyBlk := ⟨1, []⟩
          cursor := 1
          regs := { polyStore := []
                    coefStore := []
                    status := (0, -1, -1)
                    periodic := (-1, -1) } }
        28 16
      = .escal (escalStep 12 100 16).1 (escalStep 12 100 16).2 := by
  obtain ⟨h1, h2, h3, _, h5, _⟩ := C8_precision_escalation
    { min_poly := ⟨[1, -3, 1]⟩
      beta0 := 2618033988 / 1000000000
      max_blk_len := 10
      max_poly_orbit_len := 20
      maxPrec := 100
      amb := fun _ _ => true
      xiAt := fun _ _ => 1 / 2 }
    { n := 1
      Bn_1 := ⟨[1, 0]⟩
      offset := 12
      coefBlk := ⟨1, []⟩
      polyBlk := ⟨1, []⟩
      cursor := 1
      regs := { polyStore := []
                coefStore := []
                status := (0, -1, -1)
                periodic := (-1, -1) } }
    16 (by decide) (by decide) ⟨⟨[1, 0]⟩, by decide⟩
  exact ⟨h1, h2, h3, (h5 28 (by decide) (by decide)).1 (by decide)⟩

/-- Witness for C4 at a concrete step: `n = 3` over `x^3 - x^2 - x - 1`
with `B_2 = x^2 - x - 1` and `xi = 1` (the simple-Parry branch). -/
theorem C4_fallback_policy_witness :
    ∃ r,
      fallbackPhase
        { min_poly := ⟨[-1, -1, -1, 1]⟩
          beta0 := 1839 / 1000
          max_blk_len := 10
          max_poly_orbit_len := 20
          maxPrec := 100
          amb := fun _ _ => false
          xiAt := fun _ _ => 0 }
        { n := 3
          Bn_1 := ⟨[-1, -1, 1]⟩
          offset := 10
          coefBlk := ⟨3, []⟩
          polyBlk := ⟨3, []⟩
          cursor := 2
          regs := { polyStore := [⟨1, [⟨[-1, 1, 0]⟩, ⟨[-1, -1, 1]⟩]⟩]
                    coefStore := [⟨1, [1, 1]⟩]
                    status := (0, -1, -1)
                    periodic := (-1, -1) } }
        1
      = .done .simpleParry r
      ∧ (storeConcat r.coefStore).length = (storeConcat r.polyStore).length + 1
      ∧ (storeConcat r.coefStore).getLast? = some 0
      ∧ r.periodic = ((3 : Int) - 1, 1) := by
  obtain ⟨_, hb, _⟩ := C4_fallback_policy
    { min_poly := ⟨[-1, -1, -1, 1]⟩
      beta0 := 1839 / 1000
      max_blk_len := 10
      max_poly_orbit_len := 20
      maxPrec := 100
      amb := fun _ _ => false
      xiAt := fun _ _ => 0 }
    { n := 3
      Bn_1 := ⟨[-1, -1, 1]⟩
      offset := 10
      coefBlk := ⟨3, []⟩
      polyBlk := ⟨3, []⟩
      cursor := 2
      regs := { polyStore := [⟨1, [⟨[-1, 1, 0]⟩, ⟨[-1, -1, 1]⟩]⟩]
                coefStore := [⟨1, [1, 1]⟩]
                status := (0, -1, -1)
                periodic := (-1, -1) } }
    1 (by decide) (by decide) (by decide) (by decide) (by decide) (by decide)
    (by decide)
  obtain ⟨r, hr, _, _, hlen, hlast, hper, _⟩ :=
    hb (by decide) (by decide)
  exact ⟨r, hr, hlen, hlast, hper⟩

end BetaNumbers
